import Mathlib

/-!
Verification development for the brokkr stable-handle allocator and
transform hierarchy manager.

The transform hierarchy manager is embedded from
`src/core/transform-manager.cpp`.  The packed allocator
(`packed-freelist.h`) is not part of the sources; it is modelled from the
specification (section 3 "Packed Allocator state" and section 4.1
"Packed Allocator"), as noted on each of its definitions.

Matrices (`maths::mat4`, a 4x4 component struct) are modelled with exact
integer entries; all matrix inputs appearing in the verified scenarios
(axis translations) are exact in the source's floating-point
representation as well, so products of them incur no rounding.
-/

namespace Brokkr

/-- A 4x4 matrix with integer entries, modelling `maths::mat4` (a flat
struct of 16 components, row major). -/
structure mat4 where
  m00 : Int
  m01 : Int
  m02 : Int
  m03 : Int
  m10 : Int
  m11 : Int
  m12 : Int
  m13 : Int
  m20 : Int
  m21 : Int
  m22 : Int
  m23 : Int
  m30 : Int
  m31 : Int
  m32 : Int
  m33 : Int
deriving DecidableEq

/-- The zero matrix, stand-in for a value-initialized `maths::mat4`. -/
def mat4zero : mat4 := ⟨0, 0, 0, 0, 0, 0, 0, 0, 0, 0, 0, 0, 0, 0, 0, 0⟩

/-- The identity matrix. -/
def mat4id : mat4 := ⟨1, 0, 0, 0, 0, 1, 0, 0, 0, 0, 1, 0, 0, 0, 0, 1⟩

/-- Row-times-column 4x4 matrix product, modelling `mat4::operator*`. -/
def mat4mul (a b : mat4) : mat4 :=
  ⟨a.m00 * b.m00 + a.m01 * b.m10 + a.m02 * b.m20 + a.m03 * b.m30,
   a.m00 * b.m01 + a.m01 * b.m11 + a.m02 * b.m21 + a.m03 * b.m31,
   a.m00 * b.m02 + a.m01 * b.m12 + a.m02 * b.m22 + a.m03 * b.m32,
   a.m00 * b.m03 + a.m01 * b.m13 + a.m02 * b.m23 + a.m03 * b.m33,
   a.m10 * b.m00 + a.m11 * b.m10 + a.m12 * b.m20 + a.m13 * b.m30,
   a.m10 * b.m01 + a.m11 * b.m11 + a.m12 * b.m21 + a.m13 * b.m31,
   a.m10 * b.m02 + a.m11 * b.m12 + a.m12 * b.m22 + a.m13 * b.m32,
   a.m10 * b.m03 + a.m11 * b.m13 + a.m12 * b.m23 + a.m13 * b.m33,
   a.m20 * b.m00 + a.m21 * b.m10 + a.m22 * b.m20 + a.m23 * b.m30,
   a.m20 * b.m01 + a.m21 * b.m11 + a.m22 * b.m21 + a.m23 * b.m31,
   a.m20 * b.m02 + a.m21 * b.m12 + a.m22 * b.m22 + a.m23 * b.m32,
   a.m20 * b.m03 + a.m21 * b.m13 + a.m22 * b.m23 + a.m23 * b.m33,
   a.m30 * b.m00 + a.m31 * b.m10 + a.m32 * b.m20 + a.m33 * b.m30,
   a.m30 * b.m01 + a.m31 * b.m11 + a.m32 * b.m21 + a.m33 * b.m31,
   a.m30 * b.m02 + a.m31 * b.m12 + a.m32 * b.m22 + a.m33 * b.m32,
   a.m30 * b.m03 + a.m31 * b.m13 + a.m32 * b.m23 + a.m33 * b.m33⟩

instance : Mul mat4 := ⟨mat4mul⟩

/-- Translation matrix (row-vector convention: translation in the last row). -/
def translate (x y z : Int) : mat4 :=
  ⟨1, 0, 0, 0, 0, 1, 0, 0, 0, 0, 1, 0, x, y, z, 1⟩

/-- Modelled from the spec: `handle_t`, an `(index, generation)` pair
(`handle.h` is not among the sources). -/
structure handle_t where
  index_ : Nat
  generation_ : Nat
deriving DecidableEq

/-- Modelled from the spec: the distinguished NULL handle (index is the
u32 sentinel value). -/
def NULL_HANDLE : handle_t := ⟨4294967295, 4294967295⟩

/-- Modelled from the spec: one slot-table entry, mapping a logical index
to `(dense position, generation, occupied flag)`. -/
structure slot_t where
  densePos : Nat
  generation : Nat
  occupied : Bool
deriving DecidableEq

/-- Default slot used for out-of-range reads of the slot table. -/
def emptySlot : slot_t := ⟨0, 0, false⟩

/-- Modelled from the spec: the packed allocator state — dense element
array, slot table (`sparse`), and free list of recycled logical indices
(`packed-freelist.h` is not among the sources). -/
structure packed_freelist_t (α : Type) where
  dense : List α
  sparse : List slot_t
  freeList : List Nat
deriving DecidableEq

/-- Exchange the entries of a list at two positions (no-op when either is
out of range). -/
def listSwap {β : Type} (l : List β) (i j : Nat) : List β :=
  match l[i]?, l[j]? with
  | some x, some y => (l.set i y).set j x
  | _, _ => l

/-- Scan a slot table for the first occupied slot recording dense
position `d`, returning its logical index. -/
def scanOwner (l : List slot_t) (d : Nat) : Option Nat :=
  match l with
  | [] => none
  | s :: rest =>
    if s.occupied = true ∧ s.densePos = d then some 0
    else (scanOwner rest d).map (· + 1)

namespace packed_freelist_t

variable {α : Type}

/-- Slot-table lookup (out-of-range reads yield the empty slot). -/
def slotAt (pf : packed_freelist_t α) (i : Nat) : slot_t :=
  pf.sparse.getD i emptySlot

/-- Modelled from the spec: a handle is valid iff its index is in range,
the slot is occupied, and the generations agree. -/
def isValid (pf : packed_freelist_t α) (h : handle_t) : Bool :=
  decide (h.index_ < pf.sparse.length) && (pf.slotAt h.index_).occupied &&
    decide ((pf.slotAt h.index_).generation = h.generation_)

/-- Modelled from the spec: `getIndexFromId` — dense position of a valid
handle (the C++ signature returns `bool` plus an out-parameter). -/
def getIndexFromId (pf : packed_freelist_t α) (h : handle_t) : Option Nat :=
  if pf.isValid h then some (pf.slotAt h.index_).densePos else none

/-- Modelled from the spec: `get` — validity check then dense access. -/
def get (pf : packed_freelist_t α) (h : handle_t) : Option α :=
  (pf.getIndexFromId h).bind (fun d => pf.dense[d]?)

/-- Logical (slot-table) index owning a given dense position, found by
scanning the slot table for the occupied slot recording that position. -/
def idOfDense (pf : packed_freelist_t α) (d : Nat) : Option Nat :=
  scanOwner pf.sparse d

/-- Modelled from the spec: `getIdFromIndex` — handle of the element at a
dense position. -/
def getIdFromIndex (pf : packed_freelist_t α) (d : Nat) : handle_t :=
  match pf.idOfDense d with
  | some i => ⟨i, (pf.slotAt i).generation⟩
  | none => NULL_HANDLE

/-- Modelled from the spec: `getElementCount`. -/
def getElementCount (pf : packed_freelist_t α) : Nat :=
  pf.dense.length

/-- Modelled from the spec: `add` — append to the dense array, allocate a
logical index from the free list (or extend the slot table), record the
slot's generation in the returned handle. -/
def add (pf : packed_freelist_t α) (e : α) : handle_t × packed_freelist_t α :=
  match pf.freeList with
  | idx :: rest =>
    let gen := (pf.slotAt idx).generation
    (⟨idx, gen⟩,
      { dense := pf.dense ++ [e]
        sparse := pf.sparse.set idx ⟨pf.dense.length, gen, true⟩
        freeList := rest })
  | [] =>
    (⟨pf.sparse.length, 0⟩,
      { dense := pf.dense ++ [e]
        sparse := pf.sparse ++ [⟨pf.dense.length, 0, true⟩]
        freeList := [] })

/-- Modelled from the spec: `remove` — on a valid handle, swap the
target's dense entry with the last one, repoint the slot of the moved
element, shrink the dense array, bump the freed slot's generation and
recycle its logical index; on an invalid handle, fail with `false`. -/
def remove (pf : packed_freelist_t α) (h : handle_t) : Bool × packed_freelist_t α :=
  if pf.isValid h then
    let d := (pf.slotAt h.index_).densePos
    let last := pf.dense.length - 1
    let pf1 :=
      if d = last then pf
      else
        { pf with
          dense := listSwap pf.dense d last
          sparse :=
            match pf.idOfDense last with
            | some j => pf.sparse.set j ⟨d, (pf.slotAt j).generation, true⟩
            | none => pf.sparse }
    (true,
      { pf1 with
        dense := pf1.dense.dropLast
        sparse := pf1.sparse.set h.index_ ⟨0, (pf.slotAt h.index_).generation + 1, false⟩
        freeList := h.index_ :: pf.freeList })
  else (false, pf)

/-- Modelled from the spec: `swap` — exchange the dense contents and the
slot-table dense positions of two valid elements, leaving both handles
valid; no-op if either handle is invalid. -/
def swap (pf : packed_freelist_t α) (ha hb : handle_t) : packed_freelist_t α :=
  if pf.isValid ha && pf.isValid hb then
    let da := (pf.slotAt ha.index_).densePos
    let db := (pf.slotAt hb.index_).densePos
    { pf with
      dense := listSwap pf.dense da db
      sparse :=
        (pf.sparse.set ha.index_ ⟨db, (pf.slotAt ha.index_).generation, true⟩).set
          hb.index_ ⟨da, (pf.slotAt hb.index_).generation, true⟩ }
  else pf

end packed_freelist_t

/-- State of `transform_manager_t` (`transform-manager.cpp`): the
allocator of local matrices plus the parallel `parent_`/`world_` arrays
and the dirty flag. -/
structure transform_manager_t where
  transform_ : packed_freelist_t mat4
  parent_ : List handle_t
  world_ : List mat4
  hierarchy_changed_ : Bool
deriving DecidableEq

namespace transform_manager_t

/-- The manager with no transforms. -/
def empty : transform_manager_t := ⟨⟨[], [], []⟩, [], [], false⟩

/-- Embeds `transform_manager_t::createTransform` (transform-manager.cpp
lines 30-45): add to the allocator, grow the parallel arrays by one when
`id.index_` reaches their size, then write `parent_[id.index_] =
NULL_HANDLE` — note the source indexes `parent_` here by the handle's
logical index, not by the new element's dense position. -/
def createTransform (tm : transform_manager_t) (m : mat4) :
    handle_t × transform_manager_t :=
  let r := tm.transform_.add m
  let id := r.1
  let p1 := if tm.parent_.length ≤ id.index_ then tm.parent_ ++ [NULL_HANDLE] else tm.parent_
  let w1 := if tm.parent_.length ≤ id.index_ then tm.world_ ++ [mat4zero] else tm.world_
  (id,
    { transform_ := r.2
      parent_ := p1.set id.index_ NULL_HANDLE
      world_ := w1
      hierarchy_changed_ := true })

/-- Embeds `transform_manager_t::destroyTransform` (lines 47-69): set the
dirty flag, mirror the allocator's forthcoming swap-with-last on
`parent_`/`world_` when the element is not last, then delegate to
`remove`.  `lastTransform` is computed as `getElementCount()-1` on u32,
hence the explicit wrap at count 0. -/
def destroyTransform (tm : transform_manager_t) (id : handle_t) :
    Bool × transform_manager_t :=
  let lastTransform := (tm.transform_.getElementCount + 4294967295) % 4294967296
  match tm.transform_.getIndexFromId id with
  | some index =>
    if index < lastTransform then
      let r := tm.transform_.remove id
      (r.1,
        { transform_ := r.2
          parent_ := listSwap tm.parent_ index lastTransform
          world_ := listSwap tm.world_ index lastTransform
          hierarchy_changed_ := true })
    else
      let r := tm.transform_.remove id
      (r.1,
        { transform_ := r.2
          parent_ := tm.parent_
          world_ := tm.world_
          hierarchy_changed_ := true })
  | none =>
    let r := tm.transform_.remove id
    (r.1,
      { transform_ := r.2
        parent_ := tm.parent_
        world_ := tm.world_
        hierarchy_changed_ := true })

/-- Embeds `transform_manager_t::getTransform` (lines 71-74). -/
def getTransform (tm : transform_manager_t) (id : handle_t) : Option mat4 :=
  tm.transform_.get id

/-- Embeds `transform_manager_t::setTransform` (lines 76-86): writes the
local matrix through the pointer returned by the allocator. -/
def setTransform (tm : transform_manager_t) (id : handle_t) (m : mat4) :
    Bool × transform_manager_t :=
  match tm.transform_.getIndexFromId id with
  | some d =>
    (true, { tm with transform_ := { tm.transform_ with dense := tm.transform_.dense.set d m } })
  | none => (false, tm)

/-- Embeds `transform_manager_t::setParent` (lines 88-99): the dirty flag
is set unconditionally before the handle is validated. -/
def setParent (tm : transform_manager_t) (id parentId : handle_t) :
    Bool × transform_manager_t :=
  match tm.transform_.getIndexFromId id with
  | some index =>
    (true, { tm with parent_ := tm.parent_.set index parentId, hierarchy_changed_ := true })
  | none => (false, { tm with hierarchy_changed_ := true })

/-- Embeds `transform_manager_t::getParent` (lines 101-110). -/
def getParent (tm : transform_manager_t) (id : handle_t) : handle_t :=
  match tm.transform_.getIndexFromId id with
  | some index => tm.parent_.getD index NULL_HANDLE
  | none => NULL_HANDLE

/-- Embeds `transform_manager_t::getWorldMatrix` (lines 112-123): the
value behind the returned pointer (`&world_[index]`), or `none` for an
invalid handle (the duplicated `getIndexFromId` call in the source is
pure and has no further effect). -/
def getWorldMatrix (tm : transform_manager_t) (id : handle_t) : Option mat4 :=
  match tm.transform_.getIndexFromId id with
  | some index => tm.world_[index]?
  | none => none

/-- The `(id, parent, level)` record built by `sortTransforms`
(transform-manager.cpp lines 128-134). -/
structure transform_handle_t where
  id : handle_t
  parent : handle_t
  level : Nat
deriving DecidableEq

/-- Comparison used for sorting the records: by `level` ascending
(the source sorts with `operator<` comparing levels). -/
def levelLe (a b : transform_handle_t) : Prop :=
  a.level ≤ b.level

instance : DecidableRel levelLe := fun a b => Nat.decLe a.level b.level

/-- The `while` loop of `sortTransforms` (lines 143-148) that counts hops
to the root: walks `parent_` while the current parent handle is valid.
The loop in the source is unbounded; `fuel` bounds the walk, and `none`
models non-termination of the source loop within that budget. -/
def computeLevel (pf : packed_freelist_t mat4) (par : List handle_t) :
    Nat → handle_t → Option Nat
  | 0, _ => none
  | fuel + 1, parentId =>
    match pf.getIndexFromId parentId with
    | none => some 0
    | some pIdx => (computeLevel pf par fuel (par.getD pIdx NULL_HANDLE)).map (· + 1)

/-- The construction loop of `sortTransforms` (lines 136-149) producing
the `orderedTransform` vector, with fuel `count + 1` for each depth walk
(sufficient for every acyclic parent relation, see the termination
results below). -/
def buildOrdered (tm : transform_manager_t) : Option (List transform_handle_t) :=
  let count := tm.transform_.getElementCount
  (List.range count).mapM (fun i =>
    (computeLevel tm.transform_ tm.parent_ (count + 1) (tm.parent_.getD i NULL_HANDLE)).map
      (fun lv => ⟨tm.transform_.getIdFromIndex i, tm.parent_.getD i NULL_HANDLE, lv⟩))

/-- One iteration of the reorder loop of `sortTransforms` (lines 154-158):
swap the element currently at position `i` with the sorted entry's
element, and write the sorted entry's parent at position `i`. -/
def applyOrderStep (tm : transform_manager_t) (i : Nat) (t : transform_handle_t) :
    transform_manager_t :=
  { tm with
    transform_ := tm.transform_.swap (tm.transform_.getIdFromIndex i) t.id
    parent_ := tm.parent_.set i t.parent }

/-- The reorder loop of `sortTransforms`, iterating `applyOrderStep` over
the sorted records with a running position counter. -/
def applyOrder : transform_manager_t → Nat → List transform_handle_t → transform_manager_t
  | tm, _, [] => tm
  | tm, i, t :: rest => applyOrder (applyOrderStep tm i t) (i + 1) rest

/-- Embeds `transform_manager_t::sortTransforms` (lines 125-159): build
the records, sort them by level ascending, re-apply the order to
physical storage.  The source sorts with `std::sort`; the model uses an
insertion sort, one admissible outcome of the `std::sort` contract (see
`IsCppSortResult`). -/
def sortTransforms (tm : transform_manager_t) : Option transform_manager_t :=
  (buildOrdered tm).map (fun ord => applyOrder tm 0 (ord.insertionSort levelLe))

/-- One iteration of the world-matrix pass of `update` (lines 175-182):
`world_[i] = transforms[i]`, then if `parent_[i]` resolves to dense index
`p`, `world_[i] = world_[i] * world_[p]` (reading `world_` as already
mutated, exactly as the source does). -/
def updatePassStep (tm : transform_manager_t) (i : Nat) : transform_manager_t :=
  let w := tm.world_.set i (tm.transform_.dense.getD i mat4zero)
  match tm.transform_.getIndexFromId (tm.parent_.getD i NULL_HANDLE) with
  | some p =>
    { tm with world_ := w.set i (mat4mul (w.getD i mat4zero) (w.getD p mat4zero)) }
  | none => { tm with world_ := w }

/-- The world-matrix loop of `update`, iterated over dense positions. -/
def updatePass (tm : transform_manager_t) (l : List Nat) : transform_manager_t :=
  l.foldl updatePassStep tm

/-- Embeds `transform_manager_t::update` (lines 161-183): re-sort when
the hierarchy changed (clearing the flag), then the linear world-matrix
pass.  `none` models non-termination of the depth walk inside
`sortTransforms`. -/
def update (tm : transform_manager_t) : Option transform_manager_t :=
  let s1 :=
    if tm.hierarchy_changed_ then
      (sortTransforms tm).map (fun s => { s with hierarchy_changed_ := false })
    else some tm
  s1.map (fun s => updatePass s (List.range s.transform_.getElementCount))

end transform_manager_t

namespace packed_freelist_t

variable {α : Type}

/-- Modelled from the spec: the allocator invariant of section 3 — the
dense length equals the number of occupied slots, every occupied slot's
dense position is in range and unique, and the free list holds exactly
the unoccupied logical indices, without duplicates. -/
def pwf (pf : packed_freelist_t α) : Prop :=
  (pf.sparse.filter (fun s => s.occupied)).length = pf.dense.length ∧
  (∀ i, i < pf.sparse.length → (pf.slotAt i).occupied = true →
    (pf.slotAt i).densePos < pf.dense.length) ∧
  (∀ i, i < pf.sparse.length → ∀ j, j < pf.sparse.length →
    (pf.slotAt i).occupied = true → (pf.slotAt j).occupied = true →
    (pf.slotAt i).densePos = (pf.slotAt j).densePos → i = j) ∧
  (∀ x ∈ pf.freeList, x < pf.sparse.length ∧ (pf.slotAt x).occupied = false) ∧
  pf.freeList.Nodup ∧
  (∀ i, i < pf.sparse.length → (pf.slotAt i).occupied = false → i ∈ pf.freeList)

set_option synthInstance.maxSize 1024 in
instance (pf : packed_freelist_t α) : Decidable pf.pwf := by
  unfold pwf
  infer_instance

end packed_freelist_t

/-- One allocator operation, for stating properties over arbitrary
sequences of public calls. -/
inductive allocOp (α : Type) where
  | addOp : α → allocOp α
  | removeOp : handle_t → allocOp α
  | swapOp : handle_t → handle_t → allocOp α

/-- Apply one allocator operation to the state. -/
def stepOp {α : Type} (pf : packed_freelist_t α) : allocOp α → packed_freelist_t α
  | .addOp e => (pf.add e).2
  | .removeOp h => (pf.remove h).2
  | .swapOp a b => pf.swap a b

/-- Run a sequence of allocator operations. -/
def runOps {α : Type} (pf : packed_freelist_t α) (l : List (allocOp α)) :
    packed_freelist_t α :=
  l.foldl stepOp pf

namespace transform_manager_t

/-- Manager invariant: allocator invariant plus the parallel arrays being
long enough and of equal length. -/
def mwf (tm : transform_manager_t) : Prop :=
  tm.transform_.pwf ∧ tm.parent_.length = tm.world_.length ∧
    tm.transform_.sparse.length ≤ tm.parent_.length

instance (tm : transform_manager_t) : Decidable tm.mwf := by
  unfold mwf
  infer_instance

/-- Apply a sequence of `setParent` calls (ignoring their results). -/
def setParentCalls (tm : transform_manager_t) (l : List (handle_t × handle_t)) :
    transform_manager_t :=
  l.foldl (fun s p => (s.setParent p.1 p.2).2) tm

/-- Handle `h` observes the same hierarchy data in both states: same
recorded parent, same cached world matrix, same local matrix. -/
def sameView (tm tm' : transform_manager_t) (h : handle_t) : Prop :=
  tm'.getParent h = tm.getParent h ∧ tm'.getWorldMatrix h = tm.getWorldMatrix h ∧
    tm'.getTransform h = tm.getTransform h

instance (tm tm' : transform_manager_t) (h : handle_t) : Decidable (sameView tm tm' h) := by
  unfold sameView
  infer_instance

/-- The contract of `std::sort` with the source's `operator<` (compare by
`level`): the output is some permutation of the input that is pairwise
non-descending in `level`.  `std::sort` guarantees nothing more — in
particular not stability. -/
def IsCppSortResult (l l' : List transform_handle_t) : Prop :=
  l'.Perm l ∧ l'.Pairwise (fun a b => a.level ≤ b.level)

/-- The matrix a node should carry after `update`: its local matrix
composed (in the source's `local * parentWorld` order) along its
ancestor chain, walking `parent_` exactly as the source resolves
parents; `fuel` bounds the walk. -/
def chainWorld (pf : packed_freelist_t mat4) (par : List handle_t) :
    Nat → Nat → Option mat4
  | 0, _ => none
  | fuel + 1, i =>
    match pf.getIndexFromId (par.getD i NULL_HANDLE) with
    | none => some (pf.dense.getD i mat4zero)
    | some p => (chainWorld pf par fuel p).map (fun m => mat4mul (pf.dense.getD i mat4zero) m)

/-- One hop of the parent relation on dense positions: the dense position
of `parent_[i]` when that handle is valid. -/
def parStep (pf : packed_freelist_t mat4) (par : List handle_t) (i : Nat) :
    Option Nat :=
  pf.getIndexFromId (par.getD i NULL_HANDLE)

/-- Iterate `parStep` `k` times. -/
def parIter (pf : packed_freelist_t mat4) (par : List handle_t) :
    Nat → Nat → Option Nat
  | 0, i => some i
  | k + 1, i =>
    match parStep pf par i with
    | some p => parIter pf par k p
    | none => none

/-- The parenting relation restricted to valid handles is a forest: no
dense position returns to itself under iterated parent hops. -/
def Acyclic (pf : packed_freelist_t mat4) (par : List handle_t) : Prop :=
  ∀ i, i < pf.dense.length → ∀ k, 0 < k → parIter pf par k i ≠ some i

end transform_manager_t

namespace script

open transform_manager_t

/-- Local matrix of transform A in the chain scenario. -/
def t100 : mat4 := translate 1 0 0

/-- Local matrix of transform B in the chain scenario. -/
def t010 : mat4 := translate 0 1 0

/-- Local matrix of transform C in the chain scenario. -/
def t001 : mat4 := translate 0 0 1

/-- First create call on the empty manager. -/
def st1 : handle_t × transform_manager_t := transform_manager_t.empty.createTransform t100

/-- Handle of the first transform. -/
def h0 : handle_t := st1.1

/-- Second create call. -/
def st2 : handle_t × transform_manager_t := st1.2.createTransform t010

/-- Handle of the second transform. -/
def h1 : handle_t := st2.1

/-- Third create call. -/
def st3 : handle_t × transform_manager_t := st2.2.createTransform t001

/-- Handle of the third transform. -/
def h2 : handle_t := st3.1

/-- Chain scenario: B parented under A. -/
def stB : transform_manager_t := (st3.2.setParent h1 h0).2

/-- Chain scenario: C parented under B. -/
def stC : transform_manager_t := (stB.setParent h2 h1).2

/-- Chain scenario after `update()`. -/
def stU : transform_manager_t := (stC.update).getD transform_manager_t.empty

/-- Stale-parent scenario: destroy A out of the chain.  The mirror swap
moves C's recorded parent to position 0 and B ends at dense position 1
still recording the now-dead handle of A as its parent. -/
def ds1 : transform_manager_t := (stC.destroyTransform h0).2

/-- Stale-parent scenario after `update()`. -/
def ds2 : transform_manager_t := (ds1.update).getD transform_manager_t.empty

/-- Reuse scenario: C parented under A (three roots otherwise). -/
def rs4 : transform_manager_t := (st3.2.setParent h2 h0).2

/-- Reuse scenario: destroy the middle transform (its dense slot is
refilled by the last element, with the parallel arrays swapped in
mirror). -/
def rs5 : transform_manager_t := (rs4.destroyTransform h1).2

/-- Reuse scenario: a fourth create call, which reuses logical slot 1
while appending at dense position 2. -/
def rs6 : handle_t × transform_manager_t := rs5.createTransform (translate 2 0 0)

end script

end Brokkr
namespace Brokkr

namespace packed_freelist_t

theorem remove_of_invalid {α : Type} (pf : packed_freelist_t α) (h : handle_t)
    (hv : pf.isValid h = false) : pf.remove h = (false, pf) := by
  simp [remove, hv]

theorem getIndexFromId_of_invalid {α : Type} (pf : packed_freelist_t α) (h : handle_t)
    (hv : pf.isValid h = false) : pf.getIndexFromId h = none := by
  simp [getIndexFromId, hv]

end packed_freelist_t

namespace transform_manager_t

open packed_freelist_t in
theorem setParent_getWorldMatrix (tm : transform_manager_t) (a b h : handle_t) :
    ((tm.setParent a b).2).getWorldMatrix h = tm.getWorldMatrix h := by
  cases hx : tm.transform_.getIndexFromId a <;>
    simp [setParent, getWorldMatrix, hx]

theorem setParentCalls_getWorldMatrix (l : List (handle_t × handle_t)) :
    ∀ (tm : transform_manager_t) (h : handle_t),
      (tm.setParentCalls l).getWorldMatrix h = tm.getWorldMatrix h := by
  induction l with
  | nil => intro tm h; rfl
  | cons p rest ih =>
    intro tm h
    have h1 := setParent_getWorldMatrix tm p.1 p.2 h
    calc ((tm.setParent p.1 p.2).2.setParentCalls rest).getWorldMatrix h
        = (tm.setParent p.1 p.2).2.getWorldMatrix h := ih _ h
      _ = tm.getWorldMatrix h := h1

theorem destroyTransform_invalid (tm : transform_manager_t) (id : handle_t)
    (hv : tm.transform_.isValid id = false) :
    tm.destroyTransform id = (false, { tm with hierarchy_changed_ := true }) := by
  simp [destroyTransform, packed_freelist_t.getIndexFromId_of_invalid _ _ hv,
    packed_freelist_t.remove_of_invalid _ _ hv]

end transform_manager_t
end Brokkr
namespace Brokkr

theorem getD_set_self {β : Type} (l : List β) (k : Nat) (s : β) (d : β)
    (h : k < l.length) : (l.set k s).getD k d = s := by
  rw [List.getD_eq_getElem?_getD, List.getElem?_set_self h]
  rfl

theorem getD_set_ne {β : Type} (l : List β) (k : Nat) (s : β) (d : β) (i : Nat)
    (h : k ≠ i) : (l.set k s).getD i d = l.getD i d := by
  rw [List.getD_eq_getElem?_getD, List.getElem?_set_ne h, ← List.getD_eq_getElem?_getD]

theorem getD_append_left {β : Type} (l l2 : List β) (d : β) (i : Nat)
    (h : i < l.length) : (l ++ l2).getD i d = l.getD i d := by
  rw [List.getD_eq_getElem?_getD, List.getElem?_append_left h, ← List.getD_eq_getElem?_getD]

theorem length_listSwap {β : Type} (l : List β) (i j : Nat) :
    (listSwap l i j).length = l.length := by
  unfold listSwap
  cases hi : l[i]? <;> cases hj : l[j]? <;> simp

namespace packed_freelist_t

variable {α : Type}

theorem isValid_iff (pf : packed_freelist_t α) (h : handle_t) :
    pf.isValid h = true ↔
      h.index_ < pf.sparse.length ∧ (pf.slotAt h.index_).occupied = true ∧
        (pf.slotAt h.index_).generation = h.generation_ := by
  simp [isValid, Bool.and_assoc, and_assoc]

theorem remove_fst (pf : packed_freelist_t α) (h : handle_t) :
    (pf.remove h).1 = pf.isValid h := by
  cases hv : pf.isValid h <;> simp [remove, hv]

theorem add_eq_of_nil (pf : packed_freelist_t α) (e : α) (hf : pf.freeList = []) :
    pf.add e = (⟨pf.sparse.length, 0⟩,
      { dense := pf.dense ++ [e]
        sparse := pf.sparse ++ [⟨pf.dense.length, 0, true⟩]
        freeList := [] }) := by
  unfold add
  rw [hf]

theorem add_eq_of_cons (pf : packed_freelist_t α) (e : α) (x : Nat) (rest : List Nat)
    (hf : pf.freeList = x :: rest) :
    pf.add e = (⟨x, (pf.slotAt x).generation⟩,
      { dense := pf.dense ++ [e]
        sparse := pf.sparse.set x ⟨pf.dense.length, (pf.slotAt x).generation, true⟩
        freeList := rest }) := by
  unfold add
  rw [hf]

theorem remove_eq_of_last (pf : packed_freelist_t α) (h : handle_t)
    (hv : pf.isValid h = true)
    (hd : (pf.slotAt h.index_).densePos = pf.dense.length - 1) :
    pf.remove h = (true,
      { dense := pf.dense.dropLast
        sparse := pf.sparse.set h.index_ ⟨0, (pf.slotAt h.index_).generation + 1, false⟩
        freeList := h.index_ :: pf.freeList }) := by
  unfold remove
  simp only [hv, if_true, hd, dite_eq_ite, if_pos]

theorem remove_eq_of_swap (pf : packed_freelist_t α) (h : handle_t)
    (hv : pf.isValid h = true)
    (hd : (pf.slotAt h.index_).densePos ≠ pf.dense.length - 1) (j : Nat)
    (hj : pf.idOfDense (pf.dense.length - 1) = some j) :
    pf.remove h = (true,
      { dense := (listSwap pf.dense (pf.slotAt h.index_).densePos (pf.dense.length - 1)).dropLast
        sparse := (pf.sparse.set j
            ⟨(pf.slotAt h.index_).densePos, (pf.slotAt j).generation, true⟩).set h.index_
            ⟨0, (pf.slotAt h.index_).generation + 1, false⟩
        freeList := h.index_ :: pf.freeList }) := by
  unfold remove
  simp only [hv, if_true, if_neg hd, hj]

theorem remove_eq_of_swap_none (pf : packed_freelist_t α) (h : handle_t)
    (hv : pf.isValid h = true)
    (hd : (pf.slotAt h.index_).densePos ≠ pf.dense.length - 1)
    (hj : pf.idOfDense (pf.dense.length - 1) = none) :
    pf.remove h = (true,
      { dense := (listSwap pf.dense (pf.slotAt h.index_).densePos (pf.dense.length - 1)).dropLast
        sparse := pf.sparse.set h.index_ ⟨0, (pf.slotAt h.index_).generation + 1, false⟩
        freeList := h.index_ :: pf.freeList }) := by
  unfold remove
  simp only [hv, if_true, if_neg hd, hj]

theorem swap_eq_of_valid (pf : packed_freelist_t α) (a b : handle_t)
    (hva : pf.isValid a = true) (hvb : pf.isValid b = true) :
    pf.swap a b =
      { dense := listSwap pf.dense (pf.slotAt a.index_).densePos (pf.slotAt b.index_).densePos
        sparse := (pf.sparse.set a.index_
            ⟨(pf.slotAt b.index_).densePos, (pf.slotAt a.index_).generation, true⟩).set b.index_
            ⟨(pf.slotAt a.index_).densePos, (pf.slotAt b.index_).generation, true⟩
        freeList := pf.freeList } := by
  unfold swap
  simp only [hva, hvb, Bool.and_self, if_true]

theorem swap_eq_of_invalid (pf : packed_freelist_t α) (a b : handle_t)
    (hv : (pf.isValid a && pf.isValid b) = false) : pf.swap a b = pf := by
  unfold swap
  simp only [hv]
  simp

end packed_freelist_t
end Brokkr
namespace Brokkr

namespace packed_freelist_t

variable {α : Type}

theorem sparse_length_stepOp (pf : packed_freelist_t α) (op : allocOp α) :
    pf.sparse.length ≤ (stepOp pf op).sparse.length := by
  cases op with
  | addOp e =>
    show pf.sparse.length ≤ (pf.add e).2.sparse.length
    cases hf : pf.freeList with
    | nil => rw [add_eq_of_nil pf e hf]; simp
    | cons x rest => rw [add_eq_of_cons pf e x rest hf]; simp
  | removeOp h =>
    show pf.sparse.length ≤ (pf.remove h).2.sparse.length
    cases hv : pf.isValid h with
    | false => rw [remove_of_invalid pf h hv]
    | true =>
      by_cases hd : (pf.slotAt h.index_).densePos = pf.dense.length - 1
      · rw [remove_eq_of_last pf h hv hd]; simp
      · cases hj : pf.idOfDense (pf.dense.length - 1) with
        | some j => rw [remove_eq_of_swap pf h hv hd j hj]; simp
        | none => rw [remove_eq_of_swap_none pf h hv hd hj]; simp
  | swapOp a b =>
    show pf.sparse.length ≤ (pf.swap a b).sparse.length
    cases hv : (pf.isValid a && pf.isValid b) with
    | false => rw [swap_eq_of_invalid pf a b hv]
    | true =>
      have hva : pf.isValid a = true := by
        have := hv; cases ha : pf.isValid a
        · rw [ha] at this; simp at this
        · rfl
      have hvb : pf.isValid b = true := by
        have := hv; cases hb : pf.isValid b
        · rw [hb, Bool.and_false] at this; simp at this
        · rfl
      rw [swap_eq_of_valid pf a b hva hvb]; simp

theorem gen_stepOp (pf : packed_freelist_t α) (op : allocOp α) (i : Nat)
    (hi : i < pf.sparse.length) :
    (pf.slotAt i).generation ≤ ((stepOp pf op).slotAt i).generation := by
  cases op with
  | addOp e =>
    show (pf.slotAt i).generation ≤ ((pf.add e).2.slotAt i).generation
    cases hf : pf.freeList with
    | nil =>
      rw [add_eq_of_nil pf e hf]
      show (pf.slotAt i).generation ≤ ((pf.sparse ++ _).getD i emptySlot).generation
      rw [getD_append_left _ _ _ _ hi]
      exact Nat.le_refl _
    | cons x rest =>
      rw [add_eq_of_cons pf e x rest hf]
      show (pf.slotAt i).generation ≤ ((pf.sparse.set x _).getD i emptySlot).generation
      by_cases hx : x = i
      · subst hx
        rw [getD_set_self _ _ _ _ hi]
      · rw [getD_set_ne _ _ _ _ _ hx]
        exact Nat.le_refl _
  | removeOp h =>
    show (pf.slotAt i).generation ≤ ((pf.remove h).2.slotAt i).generation
    cases hv : pf.isValid h with
    | false => rw [remove_of_invalid pf h hv]
    | true =>
      have hlen : h.index_ < pf.sparse.length := ((isValid_iff pf h).1 hv).1
      by_cases hd : (pf.slotAt h.index_).densePos = pf.dense.length - 1
      · rw [remove_eq_of_last pf h hv hd]
        show (pf.slotAt i).generation ≤ ((pf.sparse.set h.index_ _).getD i emptySlot).generation
        by_cases hih : h.index_ = i
        · subst hih
          rw [getD_set_self _ _ _ _ hlen]
          exact Nat.le_succ _
        · rw [getD_set_ne _ _ _ _ _ hih]
          exact Nat.le_refl _
      · cases hj : pf.idOfDense (pf.dense.length - 1) with
        | some j =>
          rw [remove_eq_of_swap pf h hv hd j hj]
          show (pf.slotAt i).generation ≤
            (((pf.sparse.set j _).set h.index_ _).getD i emptySlot).generation
          by_cases hih : h.index_ = i
          · subst hih
            rw [getD_set_self _ _ _ _ (by simpa using hlen)]
            exact Nat.le_succ _
          · rw [getD_set_ne _ _ _ _ _ hih]
            by_cases hji : j = i
            · subst hji
              by_cases hjl : j < pf.sparse.length
              · rw [getD_set_self _ _ _ _ hjl]
              · rw [List.set_eq_of_length_le (Nat.le_of_not_lt hjl)]
                exact Nat.le_refl _
            · rw [getD_set_ne _ _ _ _ _ hji]
              exact Nat.le_refl _
        | none =>
          rw [remove_eq_of_swap_none pf h hv hd hj]
          show (pf.slotAt i).generation ≤ ((pf.sparse.set h.index_ _).getD i emptySlot).generation
          by_cases hih : h.index_ = i
          · subst hih
            rw [getD_set_self _ _ _ _ hlen]
            exact Nat.le_succ _
          · rw [getD_set_ne _ _ _ _ _ hih]
            exact Nat.le_refl _
  | swapOp a b =>
    show (pf.slotAt i).generation ≤ ((pf.swap a b).slotAt i).generation
    cases hv : (pf.isValid a && pf.isValid b) with
    | false => rw [swap_eq_of_invalid pf a b hv]
    | true =>
      have hva : pf.isValid a = true := by
        have := hv; cases ha : pf.isValid a
        · rw [ha] at this; simp at this
        · rfl
      have hvb : pf.isValid b = true := by
        have := hv; cases hb : pf.isValid b
        · rw [hb, Bool.and_false] at this; simp at this
        · rfl
      have hla : a.index_ < pf.sparse.length := ((isValid_iff pf a).1 hva).1
      have hlb : b.index_ < pf.sparse.length := ((isValid_iff pf b).1 hvb).1
      rw [swap_eq_of_valid pf a b hva hvb]
      show (pf.slotAt i).generation ≤
        (((pf.sparse.set a.index_ _).set b.index_ _).getD i emptySlot).generation
      by_cases hbi : b.index_ = i
      · subst hbi
        rw [getD_set_self _ _ _ _ (by simpa using hlb)]
      · rw [getD_set_ne _ _ _ _ _ hbi]
        by_cases hai : a.index_ = i
        · subst hai
          rw [getD_set_self _ _ _ _ hla]
        · rw [getD_set_ne _ _ _ _ _ hai]
          exact Nat.le_refl _

end packed_freelist_t
end Brokkr
namespace Brokkr

namespace packed_freelist_t

theorem isValid_false_of_empty {α : Type} (pf : packed_freelist_t α) (h : handle_t)
    (hw : pf.pwf) (hd : pf.dense = []) : pf.isValid h = false := by
  by_contra hne
  have hv : pf.isValid h = true := by
    cases hvv : pf.isValid h
    · exact absurd hvv hne
    · rfl
  rcases (isValid_iff pf h).1 hv with ⟨hlt, hocc, _⟩
  have := hw.2.1 h.index_ hlt hocc
  rw [hd] at this
  simp at this

theorem get_invalid {α : Type} (pf : packed_freelist_t α) (h : handle_t)
    (hv : pf.isValid h = false) : pf.get h = none := by
  simp [get, getIndexFromId_of_invalid _ _ hv]

end packed_freelist_t

namespace transform_manager_t

theorem setParent_invalid (tm : transform_manager_t) (id pid : handle_t)
    (hv : tm.transform_.isValid id = false) :
    tm.setParent id pid = (false, { tm with hierarchy_changed_ := true }) := by
  simp [setParent, packed_freelist_t.getIndexFromId_of_invalid _ _ hv]

theorem getWorldMatrix_invalid (tm : transform_manager_t) (id : handle_t)
    (hv : tm.transform_.isValid id = false) : tm.getWorldMatrix id = none := by
  simp [getWorldMatrix, packed_freelist_t.getIndexFromId_of_invalid _ _ hv]

theorem getParent_invalid (tm : transform_manager_t) (id : handle_t)
    (hv : tm.transform_.isValid id = false) : tm.getParent id = NULL_HANDLE := by
  simp [getParent, packed_freelist_t.getIndexFromId_of_invalid _ _ hv]

theorem setTransform_invalid (tm : transform_manager_t) (id : handle_t) (m : mat4)
    (hv : tm.transform_.isValid id = false) : tm.setTransform id m = (false, tm) := by
  simp [setTransform, packed_freelist_t.getIndexFromId_of_invalid _ _ hv]

end transform_manager_t
end Brokkr
namespace Brokkr

namespace packed_freelist_t

variable {α : Type}

/-- Invariant carried across later operations: the removed handle's slot
still exists and its generation is strictly beyond the handle's. -/
def staleAt (pf : packed_freelist_t α) (h : handle_t) : Prop :=
  h.index_ < pf.sparse.length ∧ h.generation_ < (pf.slotAt h.index_).generation

theorem staleAt_stepOp (pf : packed_freelist_t α) (h : handle_t) (op : allocOp α)
    (hp : pf.staleAt h) : (stepOp pf op).staleAt h :=
  ⟨Nat.lt_of_lt_of_le hp.1 (sparse_length_stepOp pf op),
   Nat.lt_of_lt_of_le hp.2 (gen_stepOp pf op h.index_ hp.1)⟩

theorem staleAt_runOps (l : List (allocOp α)) :
    ∀ pf : packed_freelist_t α, ∀ h : handle_t,
      pf.staleAt h → (runOps pf l).staleAt h := by
  induction l with
  | nil => intro pf h hp; exact hp
  | cons op rest ih =>
    intro pf h hp
    exact ih (stepOp pf op) h (staleAt_stepOp pf h op hp)

theorem get_none_of_staleAt (pf : packed_freelist_t α) (h : handle_t)
    (hp : pf.staleAt h) : pf.get h = none := by
  have hv : pf.isValid h = false := by
    by_contra hne
    have hvv : pf.isValid h = true := by
      cases hx : pf.isValid h
      · exact absurd hx hne
      · rfl
    rcases (isValid_iff pf h).1 hvv with ⟨h1, h2, hgen⟩
    have hp2 := hp.2
    rw [hgen] at hp2
    exact Nat.lt_irrefl _ hp2
  exact get_invalid pf h hv

theorem staleAt_remove (pf : packed_freelist_t α) (h : handle_t)
    (hr : (pf.remove h).1 = true) : ((pf.remove h).2).staleAt h := by
  have hv : pf.isValid h = true := by rw [← remove_fst]; exact hr
  have hlen : h.index_ < pf.sparse.length := ((isValid_iff pf h).1 hv).1
  have hgen : (pf.slotAt h.index_).generation = h.generation_ :=
    ((isValid_iff pf h).1 hv).2.2
  by_cases hd : (pf.slotAt h.index_).densePos = pf.dense.length - 1
  · rw [remove_eq_of_last pf h hv hd]
    refine ⟨by simpa using hlen, ?_⟩
    show h.generation_ < ((pf.sparse.set h.index_ _).getD h.index_ emptySlot).generation
    rw [getD_set_self _ _ _ _ hlen, ← hgen]
    exact Nat.lt_succ_self _
  · cases hj : pf.idOfDense (pf.dense.length - 1) with
    | some j =>
      rw [remove_eq_of_swap pf h hv hd j hj]
      refine ⟨by simpa using hlen, ?_⟩
      show h.generation_ <
        (((pf.sparse.set j _).set h.index_ _).getD h.index_ emptySlot).generation
      rw [getD_set_self _ _ _ _ (by simpa using hlen), ← hgen]
      exact Nat.lt_succ_self _
    | none =>
      rw [remove_eq_of_swap_none pf h hv hd hj]
      refine ⟨by simpa using hlen, ?_⟩
      show h.generation_ < ((pf.sparse.set h.index_ _).getD h.index_ emptySlot).generation
      rw [getD_set_self _ _ _ _ hlen, ← hgen]
      exact Nat.lt_succ_self _

end packed_freelist_t

open packed_freelist_t script transform_manager_t

/-- C7: after `remove(h)` succeeds, `get(h)` returns null/not-found after
any subsequent sequence of allocator operations — including when the
same logical slot is reused by a later `add` — because the slot's
generation is bumped on removal and generations never decrease. -/
theorem claim_C7_remove_invalidates {α : Type} (pf : packed_freelist_t α)
    (h : handle_t) (l : List (allocOp α)) (hr : (pf.remove h).1 = true) :
    (runOps (pf.remove h).2 l).get h = none :=
  get_none_of_staleAt _ h
    (staleAt_runOps l (pf.remove h).2 h (staleAt_remove pf h hr))

/-- Witness for C7: a concrete allocator holding three elements; removing
the second succeeds, and after an `add` that reuses its logical slot the
old handle still resolves to nothing. -/
theorem claim_C7_witness :
    ((script.st3.2.transform_.remove script.h1).1 = true) ∧
      (runOps (script.st3.2.transform_.remove script.h1).2
        [allocOp.addOp (translate 9 9 9)]).get script.h1 = none :=
  ⟨by decide, claim_C7_remove_invalidates script.st3.2.transform_ script.h1
    [allocOp.addOp (translate 9 9 9)] (by decide)⟩

/-- C6: `setParent` changes no `getWorldMatrix()` result: for every
handle, the value read through `getWorldMatrix` after any sequence of
`setParent` calls equals the value read before, so world matrices only
change at the next `update()`. -/
theorem claim_C6_setParent_lazy (tm : transform_manager_t)
    (l : List (handle_t × handle_t)) (h : handle_t) :
    (tm.setParentCalls l).getWorldMatrix h = tm.getWorldMatrix h :=
  setParentCalls_getWorldMatrix l tm h

/-- C10: `destroyTransform` and `setParent` on an invalid (stale or
out-of-range) handle return `false` and change nothing except setting
`hierarchy_changed_ := true`, which is set unconditionally before the
handle is validated. -/
theorem claim_C10_invalid_calls (tm : transform_manager_t) (id pid : handle_t)
    (hv : tm.transform_.isValid id = false) :
    tm.destroyTransform id = (false, { tm with hierarchy_changed_ := true }) ∧
      tm.setParent id pid = (false, { tm with hierarchy_changed_ := true }) :=
  ⟨destroyTransform_invalid tm id hv, setParent_invalid tm id pid hv⟩

/-- Witness for C10 at a concrete state and invalid handle. -/
theorem claim_C10_witness :
    script.st3.2.transform_.isValid NULL_HANDLE = false ∧
      (script.st3.2.destroyTransform NULL_HANDLE =
        (false, { script.st3.2 with hierarchy_changed_ := true }) ∧
       script.st3.2.setParent NULL_HANDLE script.h0 =
        (false, { script.st3.2 with hierarchy_changed_ := true })) :=
  ⟨by decide, claim_C10_invalid_calls script.st3.2 NULL_HANDLE script.h0 (by decide)⟩

/-- C9: every public operation is total over its input domain: on an
invalid (stale or out-of-range) handle, `getWorldMatrix`/`getTransform`/
`get` return null, `getParent` returns `NULL_HANDLE`, and
`destroyTransform`/`remove`/`setParent`/`setTransform` return `false`;
moreover on a well-formed empty container every handle is invalid, so
`destroyTransform` fails there as well. -/
theorem claim_C9_totality (tm : transform_manager_t) (id pid : handle_t) (m : mat4) :
    (tm.transform_.isValid id = false →
      tm.getWorldMatrix id = none ∧ tm.getParent id = NULL_HANDLE ∧
      tm.getTransform id = none ∧ tm.transform_.get id = none ∧
      (tm.destroyTransform id).1 = false ∧ (tm.transform_.remove id).1 = false ∧
      (tm.setParent id pid).1 = false ∧ (tm.setTransform id m).1 = false) ∧
    (tm.transform_.pwf → tm.transform_.dense = [] →
      tm.transform_.isValid id = false) := by
  constructor
  · intro hv
    refine ⟨getWorldMatrix_invalid tm id hv, getParent_invalid tm id hv,
      packed_freelist_t.get_invalid tm.transform_ id hv, packed_freelist_t.get_invalid tm.transform_ id hv, ?_, ?_, ?_, ?_⟩
    · rw [destroyTransform_invalid tm id hv]
    · rw [remove_fst]; exact hv
    · rw [setParent_invalid tm id pid hv]
    · rw [setTransform_invalid tm id m hv]
  · intro hw hd
    exact packed_freelist_t.isValid_false_of_empty tm.transform_ id hw hd

/-- Witness for C9: concrete invalid-handle facts on a populated state
and the empty-container clause on the empty manager. -/
theorem claim_C9_witness :
    (script.st3.2.getWorldMatrix NULL_HANDLE = none ∧
      script.st3.2.getParent NULL_HANDLE = NULL_HANDLE ∧
      script.st3.2.getTransform NULL_HANDLE = none ∧
      script.st3.2.transform_.get NULL_HANDLE = none ∧
      (script.st3.2.destroyTransform NULL_HANDLE).1 = false ∧
      (script.st3.2.transform_.remove NULL_HANDLE).1 = false ∧
      (script.st3.2.setParent NULL_HANDLE script.h0).1 = false ∧
      (script.st3.2.setTransform NULL_HANDLE mat4zero).1 = false) ∧
    transform_manager_t.empty.transform_.isValid script.h0 = false :=
  ⟨(claim_C9_totality script.st3.2 NULL_HANDLE script.h0 mat4zero).1 (by decide),
   (claim_C9_totality transform_manager_t.empty script.h0 script.h0 mat4zero).2
     (by decide) (by decide)⟩

/-- C1, counterexample: from a well-formed reachable state `rs5` in which
the valid handle `h2` records parent `h0`, a single `createTransform`
call (which must not touch any existing transform) changes `h2`'s
observed hierarchy data: the `parent_[id.index_]` write in
`createTransform` lands on the dense position of `h2` because the
reused logical index 1 differs from the new element's dense position 2.
Hence the parallel arrays no longer describe the allocator's dense
elements, refuting the claimed invariant for this interleaving. -/
theorem claim_C1_counterexample :
    mwf script.rs5 ∧ script.rs5.transform_.isValid script.h2 = true ∧
      ¬ sameView script.rs5 (script.rs5.createTransform (translate 2 0 0)).2 script.h2 := by
  decide

end Brokkr
namespace Brokkr

theorem listSwap_getElem?_fst {β : Type} (l : List β) (i j : Nat)
    (hi : i < l.length) (hj : j < l.length) : (listSwap l i j)[i]? = l[j]? := by
  unfold listSwap
  rw [List.getElem?_eq_getElem hi, List.getElem?_eq_getElem hj]
  by_cases hij : i = j
  · subst hij
    rw [List.getElem?_set_self (by simpa using hi)]
  · rw [List.getElem?_set_ne (fun hx => hij hx.symm), List.getElem?_set_self hi]

theorem listSwap_getElem?_snd {β : Type} (l : List β) (i j : Nat)
    (hi : i < l.length) (hj : j < l.length) : (listSwap l i j)[j]? = l[i]? := by
  unfold listSwap
  rw [List.getElem?_eq_getElem hi, List.getElem?_eq_getElem hj]
  rw [List.getElem?_set_self (by simpa using hj)]

theorem listSwap_getElem?_other {β : Type} (l : List β) (i j k : Nat)
    (hki : k ≠ i) (hkj : k ≠ j) : (listSwap l i j)[k]? = l[k]? := by
  unfold listSwap
  cases hi : l[i]? <;> cases hj : l[j]? <;> try rfl
  rw [List.getElem?_set_ne (fun hx => hkj hx.symm), List.getElem?_set_ne (fun hx => hki hx.symm)]

theorem getElem?_dropLast {β : Type} (l : List β) (i : Nat) (h : i < l.length - 1) :
    l.dropLast[i]? = l[i]? := by
  rw [List.dropLast_eq_take, List.getElem?_take]
  simp [h]

theorem getD_listSwap_fst {β : Type} (l : List β) (i j : Nat) (d : β)
    (hi : i < l.length) (hj : j < l.length) : (listSwap l i j).getD i d = l.getD j d := by
  rw [List.getD_eq_getElem?_getD, List.getD_eq_getElem?_getD, listSwap_getElem?_fst l i j hi hj]

theorem getD_listSwap_snd {β : Type} (l : List β) (i j : Nat) (d : β)
    (hi : i < l.length) (hj : j < l.length) : (listSwap l i j).getD j d = l.getD i d := by
  rw [List.getD_eq_getElem?_getD, List.getD_eq_getElem?_getD, listSwap_getElem?_snd l i j hi hj]

theorem getD_listSwap_other {β : Type} (l : List β) (i j k : Nat) (d : β)
    (hki : k ≠ i) (hkj : k ≠ j) : (listSwap l i j).getD k d = l.getD k d := by
  rw [List.getD_eq_getElem?_getD, List.getD_eq_getElem?_getD,
    listSwap_getElem?_other l i j k hki hkj]

theorem scanOwner_spec (l : List slot_t) (d : Nat) :
    ∀ j, scanOwner l d = some j →
      j < l.length ∧ (l.getD j emptySlot).occupied = true ∧
        (l.getD j emptySlot).densePos = d := by
  induction l with
  | nil => intro j hj; simp [scanOwner] at hj
  | cons s rest ih =>
    intro j hj
    unfold scanOwner at hj
    by_cases hs : s.occupied = true ∧ s.densePos = d
    · rw [if_pos hs] at hj
      cases hj
      exact ⟨Nat.succ_pos _, hs.1, hs.2⟩
    · rw [if_neg hs] at hj
      cases hr : scanOwner rest d with
      | none => rw [hr] at hj; simp at hj
      | some j' =>
        rw [hr] at hj
        simp at hj
        subst hj
        rcases ih j' hr with ⟨h1, h2, h3⟩
        refine ⟨by simpa using Nat.succ_lt_succ h1, ?_, ?_⟩
        · simpa using h2
        · simpa using h3

theorem scanOwner_isSome (l : List slot_t) (d : Nat) :
    ∀ j, j < l.length → (l.getD j emptySlot).occupied = true →
      (l.getD j emptySlot).densePos = d → (scanOwner l d).isSome = true := by
  induction l with
  | nil => intro j hj; simp at hj
  | cons s rest ih =>
    intro j hj hocc hpos
    unfold scanOwner
    by_cases hs : s.occupied = true ∧ s.densePos = d
    · rw [if_pos hs]; rfl
    · rw [if_neg hs]
      cases j with
      | zero =>
        simp at hocc hpos
        exact absurd ⟨hocc, hpos⟩ hs
      | succ j' =>
        have := ih j' (by simpa using Nat.lt_of_succ_lt_succ hj) (by simpa using hocc)
          (by simpa using hpos)
        cases hr : scanOwner rest d with
        | none => rw [hr] at this; simp at this
        | some x => rfl

end Brokkr
namespace Brokkr

namespace packed_freelist_t

variable {α : Type}

theorem slotAt_eq_get (pf : packed_freelist_t α) (i : Nat) (h : i < pf.sparse.length) :
    pf.slotAt i = pf.sparse.get ⟨i, h⟩ := by
  unfold slotAt
  rw [List.getD_eq_getElem?_getD, List.getElem?_eq_getElem h]
  rfl

theorem all_occupied_of_nil_freeList (pf : packed_freelist_t α) (hw : pf.pwf)
    (hf : pf.freeList = []) :
    ∀ i, i < pf.sparse.length → (pf.slotAt i).occupied = true := by
  intro i hi
  cases hx : (pf.slotAt i).occupied with
  | true => rfl
  | false =>
    have hmem := hw.2.2.2.2.2 i hi hx
    rw [hf] at hmem
    simp at hmem

theorem sparse_eq_dense_of_nil_freeList (pf : packed_freelist_t α) (hw : pf.pwf)
    (hf : pf.freeList = []) : pf.sparse.length = pf.dense.length := by
  have hfil : pf.sparse.filter (fun s => s.occupied) = pf.sparse := by
    apply List.filter_eq_self.2
    intro s hs
    rcases List.mem_iff_get.1 hs with ⟨⟨i, hi⟩, rfl⟩
    have := all_occupied_of_nil_freeList pf hw hf i hi
    rw [slotAt_eq_get pf i hi] at this
    simpa using this
  have := hw.1
  rw [hfil] at this
  exact this

theorem count_le_sparse (pf : packed_freelist_t α) (hw : pf.pwf) :
    pf.dense.length ≤ pf.sparse.length := by
  have := hw.1
  calc pf.dense.length = (pf.sparse.filter (fun s => s.occupied)).length := this.symm
    _ ≤ pf.sparse.length := List.length_filter_le _ _

theorem valid_densePos_lt (pf : packed_freelist_t α) (h : handle_t) (hw : pf.pwf)
    (hv : pf.isValid h = true) : (pf.slotAt h.index_).densePos < pf.dense.length := by
  rcases (isValid_iff pf h).1 hv with ⟨h1, h2, _⟩
  exact hw.2.1 h.index_ h1 h2

theorem index_ne_of_valid_ne (pf : packed_freelist_t α) (h g : handle_t)
    (hvh : pf.isValid h = true) (hvg : pf.isValid g = true) (hne : h ≠ g) :
    h.index_ ≠ g.index_ := by
  intro heq
  rcases (isValid_iff pf h).1 hvh with ⟨_, _, hgh⟩
  rcases (isValid_iff pf g).1 hvg with ⟨_, _, hgg⟩
  apply hne
  have hgen : h.generation_ = g.generation_ := by rw [← hgh, heq, hgg]
  cases h
  cases g
  simp only at heq hgen
  rw [heq, hgen]

theorem densePos_ne_of_valid_ne (pf : packed_freelist_t α) (h g : handle_t)
    (hw : pf.pwf) (hvh : pf.isValid h = true) (hvg : pf.isValid g = true)
    (hne : h ≠ g) : (pf.slotAt h.index_).densePos ≠ (pf.slotAt g.index_).densePos := by
  intro heq
  rcases (isValid_iff pf h).1 hvh with ⟨hlh, hoh, _⟩
  rcases (isValid_iff pf g).1 hvg with ⟨hlg, hog, _⟩
  exact index_ne_of_valid_ne pf h g hvh hvg hne
    (hw.2.2.1 h.index_ hlh g.index_ hlg hoh hog heq)

end packed_freelist_t

namespace transform_manager_t

open packed_freelist_t

theorem sameView_flag (tm : transform_manager_t) (b : Bool) (h : handle_t) :
    sameView tm { tm with hierarchy_changed_ := b } h :=
  ⟨rfl, rfl, rfl⟩

theorem lastTransform_eq (n : Nat) (h1 : 1 ≤ n) (h2 : n ≤ 4294967296) :
    (n + 4294967295) % 4294967296 = n - 1 := by omega

theorem createTransform_eq_of_nil (tm : transform_manager_t) (m : mat4)
    (hf : tm.transform_.freeList = []) :
    tm.createTransform m = (⟨tm.transform_.sparse.length, 0⟩,
      { transform_ :=
          { dense := tm.transform_.dense ++ [m]
            sparse := tm.transform_.sparse ++ [⟨tm.transform_.dense.length, 0, true⟩]
            freeList := [] }
        parent_ := (if tm.parent_.length ≤ tm.transform_.sparse.length then
            tm.parent_ ++ [NULL_HANDLE] else tm.parent_).set tm.transform_.sparse.length
            NULL_HANDLE
        world_ := if tm.parent_.length ≤ tm.transform_.sparse.length then
            tm.world_ ++ [mat4zero] else tm.world_
        hierarchy_changed_ := true }) := by
  simp only [createTransform, add_eq_of_nil _ _ hf]

end transform_manager_t

end Brokkr
namespace Brokkr

namespace packed_freelist_t

variable {α : Type}

theorem isValid_append (pf : packed_freelist_t α) (d2 : List α) (s2 : List slot_t)
    (fl2 : List Nat) (h : handle_t) (hidx : h.index_ < pf.sparse.length) :
    ({ dense := pf.dense ++ d2, sparse := pf.sparse ++ s2, freeList := fl2 } :
      packed_freelist_t α).isValid h = pf.isValid h := by
  have hsl : (pf.sparse ++ s2).getD h.index_ emptySlot = pf.sparse.getD h.index_ emptySlot :=
    getD_append_left _ _ _ _ hidx
  have hlt : h.index_ < (pf.sparse ++ s2).length := by
    rw [List.length_append]
    omega
  unfold isValid slotAt
  show (decide (h.index_ < (pf.sparse ++ s2).length) &&
      ((pf.sparse ++ s2).getD h.index_ emptySlot).occupied &&
      decide (((pf.sparse ++ s2).getD h.index_ emptySlot).generation = h.generation_)) = _
  rw [hsl, decide_eq_true hlt, decide_eq_true hidx]

theorem getIndexFromId_append (pf : packed_freelist_t α) (d2 : List α) (s2 : List slot_t)
    (fl2 : List Nat) (h : handle_t) (hidx : h.index_ < pf.sparse.length) :
    ({ dense := pf.dense ++ d2, sparse := pf.sparse ++ s2, freeList := fl2 } :
      packed_freelist_t α).getIndexFromId h = pf.getIndexFromId h := by
  have hsl : (pf.sparse ++ s2).getD h.index_ emptySlot = pf.sparse.getD h.index_ emptySlot :=
    getD_append_left _ _ _ _ hidx
  rw [getIndexFromId, getIndexFromId, isValid_append pf d2 s2 fl2 h hidx]
  cases hv : pf.isValid h
  · simp
  · simp only [if_true]
    show some ((pf.sparse ++ s2).getD h.index_ emptySlot).densePos = _
    rw [hsl]
    rfl

end packed_freelist_t

namespace transform_manager_t

open packed_freelist_t

theorem create_nil_fst (tm : transform_manager_t) (m : mat4)
    (hf : tm.transform_.freeList = []) :
    (tm.createTransform m).1 = ⟨tm.transform_.sparse.length, 0⟩ := by
  rw [createTransform_eq_of_nil tm m hf]

theorem create_nil_transform (tm : transform_manager_t) (m : mat4)
    (hf : tm.transform_.freeList = []) :
    (tm.createTransform m).2.transform_ =
      { dense := tm.transform_.dense ++ [m],
        sparse := tm.transform_.sparse ++ [⟨tm.transform_.dense.length, 0, true⟩],
        freeList := [] } := by
  rw [createTransform_eq_of_nil tm m hf]

theorem create_nil_parent (tm : transform_manager_t) (m : mat4)
    (hf : tm.transform_.freeList = []) :
    (tm.createTransform m).2.parent_ =
      (if tm.parent_.length ≤ tm.transform_.sparse.length then
        tm.parent_ ++ [NULL_HANDLE] else tm.parent_).set tm.transform_.sparse.length
        NULL_HANDLE := by
  rw [createTransform_eq_of_nil tm m hf]

theorem create_nil_world (tm : transform_manager_t) (m : mat4)
    (hf : tm.transform_.freeList = []) :
    (tm.createTransform m).2.world_ =
      if tm.parent_.length ≤ tm.transform_.sparse.length then
        tm.world_ ++ [mat4zero] else tm.world_ := by
  rw [createTransform_eq_of_nil tm m hf]

theorem createTransform_preserves (tm : transform_manager_t) (m : mat4) (h : handle_t)
    (hw : tm.mwf) (hf : tm.transform_.freeList = [])
    (hv : tm.transform_.isValid h = true) :
    sameView tm (tm.createTransform m).2 h := by
  obtain ⟨hpw, hlw, hls⟩ := hw
  have hn : tm.transform_.sparse.length = tm.transform_.dense.length :=
    sparse_eq_dense_of_nil_freeList _ hpw hf
  rcases (isValid_iff _ h).1 hv with ⟨hidx, hocc, hgen⟩
  have hdh : (tm.transform_.slotAt h.index_).densePos < tm.transform_.dense.length :=
    valid_densePos_lt _ h hpw hv
  have hidx' : (tm.createTransform m).2.transform_.getIndexFromId h =
      tm.transform_.getIndexFromId h := by
    rw [create_nil_transform tm m hf]
    exact getIndexFromId_append tm.transform_ _ _ _ h hidx
  have hidx0 : tm.transform_.getIndexFromId h =
      some (tm.transform_.slotAt h.index_).densePos := by
    rw [getIndexFromId, if_pos hv]
  refine ⟨?_, ?_, ?_⟩
  · simp only [getParent, hidx', hidx0]
    rw [create_nil_parent tm m hf]
    rw [getD_set_ne _ _ _ _ _ (by omega)]
    by_cases hc : tm.parent_.length ≤ tm.transform_.sparse.length
    · rw [if_pos hc, getD_append_left _ _ _ _ (by omega)]
    · rw [if_neg hc]
  · simp only [getWorldMatrix, hidx', hidx0]
    rw [create_nil_world tm m hf]
    by_cases hc : tm.parent_.length ≤ tm.transform_.sparse.length
    · rw [if_pos hc, List.getElem?_append_left (by omega)]
    · rw [if_neg hc]
  · simp only [getTransform, packed_freelist_t.get, hidx', hidx0, Option.bind]
    rw [create_nil_transform tm m hf]
    show (tm.transform_.dense ++ [m])[(tm.transform_.slotAt h.index_).densePos]? =
      tm.transform_.dense[(tm.transform_.slotAt h.index_).densePos]?
    rw [List.getElem?_append_left hdh]

theorem createTransform_new_parent_null (tm : transform_manager_t) (m : mat4)
    (hw : tm.mwf) (hf : tm.transform_.freeList = []) :
    (tm.createTransform m).2.getParent (tm.createTransform m).1 = NULL_HANDLE := by
  obtain ⟨hpw, hlw, hls⟩ := hw
  have hn : tm.transform_.sparse.length = tm.transform_.dense.length :=
    sparse_eq_dense_of_nil_freeList _ hpw hf
  have hslotnew : ((tm.transform_.sparse ++
      [(⟨tm.transform_.dense.length, 0, true⟩ : slot_t)]).getD
        tm.transform_.sparse.length emptySlot) =
      ⟨tm.transform_.dense.length, 0, true⟩ := by
    rw [List.getD_eq_getElem?_getD, List.getElem?_concat_length]
    rfl
  have hvnew : (tm.createTransform m).2.transform_.isValid (tm.createTransform m).1 = true := by
    rw [create_nil_transform tm m hf, create_nil_fst tm m hf, isValid_iff]
    refine ⟨by simp, ?_, ?_⟩
    · show ((tm.transform_.sparse ++ _).getD tm.transform_.sparse.length emptySlot).occupied = true
      rw [hslotnew]
    · show ((tm.transform_.sparse ++ _).getD tm.transform_.sparse.length emptySlot).generation = _
      rw [hslotnew]
  have hidxnew : (tm.createTransform m).2.transform_.getIndexFromId (tm.createTransform m).1 =
      some tm.transform_.dense.length := by
    rw [getIndexFromId, if_pos hvnew, create_nil_transform tm m hf, create_nil_fst tm m hf]
    show some ((tm.transform_.sparse ++ _).getD tm.transform_.sparse.length emptySlot).densePos = _
    rw [hslotnew]
  simp only [getParent, hidxnew]
  rw [create_nil_parent tm m hf, ← hn]
  by_cases hc : tm.parent_.length ≤ tm.transform_.sparse.length
  · rw [if_pos hc]
    have hpl : tm.parent_.length = tm.transform_.sparse.length := Nat.le_antisymm hc hls
    rw [getD_set_self]
    rw [List.length_append, hpl]
    simp
  · rw [if_neg hc]
    rw [getD_set_self _ _ _ _ (by omega)]

end transform_manager_t

end Brokkr
namespace Brokkr

namespace packed_freelist_t

variable {α : Type}

theorem remove_get_mapping (pf : packed_freelist_t α) (g h : handle_t)
    (hpw : pf.pwf) (hvg : pf.isValid g = true) (hvh : pf.isValid h = true)
    (hne : h ≠ g) :
    (pf.remove g).2.getIndexFromId h =
      some (if (pf.slotAt h.index_).densePos = pf.dense.length - 1
        then (pf.slotAt g.index_).densePos else (pf.slotAt h.index_).densePos) ∧
    (pf.remove g).2.get h = pf.get h := by
  have hdg : (pf.slotAt g.index_).densePos < pf.dense.length :=
    valid_densePos_lt _ g hpw hvg
  have hdh : (pf.slotAt h.index_).densePos < pf.dense.length :=
    valid_densePos_lt _ h hpw hvh
  have hneidx : h.index_ ≠ g.index_ := index_ne_of_valid_ne _ h g hvh hvg hne
  have hnedp : (pf.slotAt h.index_).densePos ≠ (pf.slotAt g.index_).densePos :=
    densePos_ne_of_valid_ne _ h g hpw hvh hvg hne
  rcases (isValid_iff _ h).1 hvh with ⟨hlh, hoh, hgh⟩
  have hidxh : pf.getIndexFromId h = some (pf.slotAt h.index_).densePos := by
    rw [getIndexFromId, if_pos hvh]
  have main : (((pf.slotAt h.index_).densePos ≠ pf.dense.length - 1 ∧
      (pf.remove g).2.slotAt h.index_ = pf.slotAt h.index_) ∨
      ((pf.slotAt h.index_).densePos = pf.dense.length - 1 ∧
        (pf.remove g).2.slotAt h.index_ =
          ⟨(pf.slotAt g.index_).densePos, (pf.slotAt h.index_).generation, true⟩)) ∧
      (pf.remove g).2.sparse.length = pf.sparse.length ∧
      ((pf.slotAt h.index_).densePos = pf.dense.length - 1 →
        (pf.remove g).2.dense[(pf.slotAt g.index_).densePos]? =
          pf.dense[(pf.slotAt h.index_).densePos]?) ∧
      ((pf.slotAt h.index_).densePos ≠ pf.dense.length - 1 →
        (pf.remove g).2.dense[(pf.slotAt h.index_).densePos]? =
          pf.dense[(pf.slotAt h.index_).densePos]?) := by
    by_cases hd : (pf.slotAt g.index_).densePos = pf.dense.length - 1
    · have hhne : (pf.slotAt h.index_).densePos ≠ pf.dense.length - 1 := by
        rw [← hd]; exact hnedp
      rw [remove_eq_of_last pf g hvg hd]
      refine ⟨Or.inl ⟨hhne, ?_⟩, by simp, fun hx => absurd hx hhne, fun _ => ?_⟩
      · show ((pf.sparse.set g.index_ _).getD h.index_ emptySlot) = _
        exact getD_set_ne _ _ _ _ _ (Ne.symm hneidx)
      · show pf.dense.dropLast[(pf.slotAt h.index_).densePos]? = _
        exact getElem?_dropLast _ _ (by omega)
    · by_cases hhl : (pf.slotAt h.index_).densePos = pf.dense.length - 1
      · have hsome : (pf.idOfDense (pf.dense.length - 1)).isSome = true :=
          scanOwner_isSome pf.sparse _ h.index_ hlh hoh hhl
        cases hj : pf.idOfDense (pf.dense.length - 1) with
        | none => rw [hj] at hsome; simp at hsome
        | some j =>
          rcases scanOwner_spec pf.sparse _ j hj with ⟨hjl, hjo, hjd⟩
          have hjh : j = h.index_ := by
            apply hpw.2.2.1 j hjl h.index_ hlh hjo hoh
            show (pf.sparse.getD j emptySlot).densePos = (pf.sparse.getD h.index_ emptySlot).densePos
            rw [hjd]
            exact hhl.symm
          subst hjh
          rw [remove_eq_of_swap pf g hvg hd h.index_ hj]
          refine ⟨Or.inr ⟨hhl, ?_⟩, by simp, fun _ => ?_, fun hx => absurd hhl hx⟩
          · show (((pf.sparse.set h.index_ _).set g.index_ _).getD h.index_ emptySlot) = _
            rw [getD_set_ne _ _ _ _ _ (Ne.symm hneidx), getD_set_self _ _ _ _ hlh]
          · show (listSwap pf.dense (pf.slotAt g.index_).densePos
                (pf.dense.length - 1)).dropLast[(pf.slotAt g.index_).densePos]? = _
            rw [getElem?_dropLast _ _ (by rw [length_listSwap]; omega)]
            rw [listSwap_getElem?_fst _ _ _ hdg (by omega), hhl]
      · cases hj : pf.idOfDense (pf.dense.length - 1) with
        | some j =>
          rcases scanOwner_spec pf.sparse _ j hj with ⟨hjl, hjo, hjd⟩
          have hjh : j ≠ h.index_ := by
            intro hx
            apply hhl
            have : (pf.slotAt h.index_).densePos = (pf.sparse.getD j emptySlot).densePos := by
              rw [hx]; rfl
            rw [this, hjd]
          rw [remove_eq_of_swap pf g hvg hd j hj]
          refine ⟨Or.inl ⟨hhl, ?_⟩, by simp, fun hx => absurd hx hhl, fun _ => ?_⟩
          · show (((pf.sparse.set j _).set g.index_ _).getD h.index_ emptySlot) = _
            rw [getD_set_ne _ _ _ _ _ (Ne.symm hneidx), getD_set_ne _ _ _ _ _ hjh]
            rfl
          · show (listSwap pf.dense (pf.slotAt g.index_).densePos
                (pf.dense.length - 1)).dropLast[(pf.slotAt h.index_).densePos]? = _
            rw [getElem?_dropLast _ _ (by rw [length_listSwap]; omega)]
            exact listSwap_getElem?_other _ _ _ _ hnedp hhl
        | none =>
          rw [remove_eq_of_swap_none pf g hvg hd hj]
          refine ⟨Or.inl ⟨hhl, ?_⟩, by simp, fun hx => absurd hx hhl, fun _ => ?_⟩
          · show ((pf.sparse.set g.index_ _).getD h.index_ emptySlot) = _
            exact getD_set_ne _ _ _ _ _ (Ne.symm hneidx)
          · show (listSwap pf.dense (pf.slotAt g.index_).densePos
                (pf.dense.length - 1)).dropLast[(pf.slotAt h.index_).densePos]? = _
            rw [getElem?_dropLast _ _ (by rw [length_listSwap]; omega)]
            exact listSwap_getElem?_other _ _ _ _ hnedp hhl
  rcases main with ⟨hslot, hlen, hmoved, hstay⟩
  have hv2 : (pf.remove g).2.isValid h = true := by
    rw [isValid_iff, hlen]
    rcases hslot with ⟨hx, heq⟩ | ⟨hx, heq⟩ <;> rw [heq]
    · exact ⟨hlh, hoh, hgh⟩
    · exact ⟨hlh, rfl, hgh⟩
  have hidx2 : (pf.remove g).2.getIndexFromId h =
      some (if (pf.slotAt h.index_).densePos = pf.dense.length - 1
        then (pf.slotAt g.index_).densePos else (pf.slotAt h.index_).densePos) := by
    rw [getIndexFromId, if_pos hv2]
    rcases hslot with ⟨hx, heq⟩ | ⟨hx, heq⟩ <;> rw [heq]
    · rw [if_neg hx]
    · rw [if_pos hx]
  refine ⟨hidx2, ?_⟩
  simp only [get, hidx2, hidxh, Option.bind]
  by_cases hx : (pf.slotAt h.index_).densePos = pf.dense.length - 1
  · rw [if_pos hx]
    exact hmoved hx
  · rw [if_neg hx]
    exact hstay hx

end packed_freelist_t

end Brokkr
namespace Brokkr

namespace transform_manager_t

open packed_freelist_t

theorem destroyTransform_eq_of_valid (tm : transform_manager_t) (g : handle_t)
    (hpw : tm.transform_.pwf) (hv : tm.transform_.isValid g = true)
    (hc : tm.transform_.dense.length ≤ 4294967296) :
    tm.destroyTransform g = (true,
      { transform_ := (tm.transform_.remove g).2,
        parent_ := if (tm.transform_.slotAt g.index_).densePos <
            tm.transform_.dense.length - 1 then
          listSwap tm.parent_ (tm.transform_.slotAt g.index_).densePos
            (tm.transform_.dense.length - 1) else tm.parent_,
        world_ := if (tm.transform_.slotAt g.index_).densePos <
            tm.transform_.dense.length - 1 then
          listSwap tm.world_ (tm.transform_.slotAt g.index_).densePos
            (tm.transform_.dense.length - 1) else tm.world_,
        hierarchy_changed_ := true }) := by
  have hdg : (tm.transform_.slotAt g.index_).densePos < tm.transform_.dense.length :=
    valid_densePos_lt _ g hpw hv
  have hcount : 1 ≤ tm.transform_.dense.length := by omega
  have hidx : tm.transform_.getIndexFromId g =
      some (tm.transform_.slotAt g.index_).densePos := by
    rw [getIndexFromId, if_pos hv]
  have hfst : (tm.transform_.remove g).1 = true := by rw [remove_fst]; exact hv
  simp only [destroyTransform, hidx, getElementCount,
    lastTransform_eq tm.transform_.dense.length hcount hc]
  by_cases hlt : (tm.transform_.slotAt g.index_).densePos < tm.transform_.dense.length - 1
  · rw [if_pos hlt, if_pos hlt, if_pos hlt]
    have hp : (tm.transform_.remove g) =
        ((tm.transform_.remove g).1, (tm.transform_.remove g).2) := rfl
    rw [hp, hfst]
  · rw [if_neg hlt, if_neg hlt, if_neg hlt]
    have hp : (tm.transform_.remove g) =
        ((tm.transform_.remove g).1, (tm.transform_.remove g).2) := rfl
    rw [hp, hfst]

theorem destroyTransform_preserves (tm : transform_manager_t) (g h : handle_t)
    (hw : tm.mwf) (hc : tm.transform_.dense.length ≤ 4294967296)
    (hvh : tm.transform_.isValid h = true) (hne : h ≠ g) :
    sameView tm (tm.destroyTransform g).2 h := by
  obtain ⟨hpw, hlw, hls⟩ := hw
  cases hvg : tm.transform_.isValid g with
  | false =>
    rw [destroyTransform_invalid tm g hvg]
    exact sameView_flag tm true h
  | true =>
    have hlensw : tm.transform_.dense.length ≤ tm.parent_.length :=
      Nat.le_trans (count_le_sparse _ hpw) hls
    have hlenww : tm.transform_.dense.length ≤ tm.world_.length := by
      rw [← hlw]
      exact hlensw
    have hdg : (tm.transform_.slotAt g.index_).densePos < tm.transform_.dense.length :=
      valid_densePos_lt _ g hpw hvg
    have hdh : (tm.transform_.slotAt h.index_).densePos < tm.transform_.dense.length :=
      valid_densePos_lt _ h hpw hvh
    have hnedp : (tm.transform_.slotAt h.index_).densePos ≠
        (tm.transform_.slotAt g.index_).densePos :=
      densePos_ne_of_valid_ne _ h g hpw hvh hvg hne
    have hidxh : tm.transform_.getIndexFromId h =
        some (tm.transform_.slotAt h.index_).densePos := by
      rw [getIndexFromId, if_pos hvh]
    obtain ⟨hmap, hget⟩ := remove_get_mapping tm.transform_ g h hpw hvg hvh hne
    rw [destroyTransform_eq_of_valid tm g hpw hvg hc]
    refine ⟨?_, ?_, ?_⟩
    · simp only [getParent, hmap, hidxh]
      by_cases hlt : (tm.transform_.slotAt g.index_).densePos <
          tm.transform_.dense.length - 1
      · rw [if_pos hlt]
        by_cases hhl : (tm.transform_.slotAt h.index_).densePos =
            tm.transform_.dense.length - 1
        · rw [if_pos hhl, hhl]
          exact getD_listSwap_fst _ _ _ _ (by omega) (by omega)
        · rw [if_neg hhl]
          exact getD_listSwap_other _ _ _ _ _ hnedp hhl
      · rw [if_neg hlt]
        have hhl : (tm.transform_.slotAt h.index_).densePos ≠
            tm.transform_.dense.length - 1 := by omega
        rw [if_neg hhl]
    · simp only [getWorldMatrix, hmap, hidxh]
      by_cases hlt : (tm.transform_.slotAt g.index_).densePos <
          tm.transform_.dense.length - 1
      · rw [if_pos hlt]
        by_cases hhl : (tm.transform_.slotAt h.index_).densePos =
            tm.transform_.dense.length - 1
        · rw [if_pos hhl, hhl]
          exact listSwap_getElem?_fst _ _ _ (by omega) (by omega)
        · rw [if_neg hhl]
          exact listSwap_getElem?_other _ _ _ _ hnedp hhl
      · rw [if_neg hlt]
        have hhl : (tm.transform_.slotAt h.index_).densePos ≠
            tm.transform_.dense.length - 1 := by omega
        rw [if_neg hhl]
    · simp only [getTransform]
      exact hget

end transform_manager_t

open transform_manager_t script

/-- C1, amended: the parallel arrays stay index-aligned with the
allocator's dense storage under `destroyTransform` unconditionally (every
surviving transform observes the same parent, world and local data) and
under `createTransform` whenever the allocator's free list is empty (no
logical-slot reuse), in which case the new handle's logical index
coincides with its dense position and the new transform's parent is
`NULL_HANDLE`.  When a freed slot is reused, `createTransform`'s
`parent_[id.index_]` write lands on a dense position owned by another
transform (see the counterexample), so the unconditional claim fails. -/
theorem claim_C1_amended (tm : transform_manager_t) (hw : tm.mwf) :
    (∀ m h, tm.transform_.freeList = [] → tm.transform_.isValid h = true →
      sameView tm (tm.createTransform m).2 h ∧
      (tm.createTransform m).2.getParent (tm.createTransform m).1 = NULL_HANDLE) ∧
    (∀ g h, tm.transform_.dense.length ≤ 4294967296 →
      tm.transform_.isValid h = true → h ≠ g →
      sameView tm (tm.destroyTransform g).2 h) := by
  constructor
  · intro m h hf hv
    exact ⟨createTransform_preserves tm m h hw hf hv,
      createTransform_new_parent_null tm m hw hf⟩
  · intro g h hc hv hne
    exact destroyTransform_preserves tm g h hw hc hv hne

/-- Witness for the amended C1 at concrete states: a slot-reuse-free
create on a three-element manager, and the destroy of the middle element
of the reuse scenario, both preserving the view of a live handle. -/
theorem claim_C1_amended_witness :
    (sameView script.st3.2 (script.st3.2.createTransform script.t100).2 script.h0 ∧
      (script.st3.2.createTransform script.t100).2.getParent
        (script.st3.2.createTransform script.t100).1 = NULL_HANDLE) ∧
    sameView script.rs4 (script.rs4.destroyTransform script.h1).2 script.h2 :=
  ⟨(claim_C1_amended script.st3.2 (by decide)).1 script.t100 script.h0 (by decide)
      (by decide),
   (claim_C1_amended script.rs4 (by decide)).2 script.h1 script.h2 (by decide)
      (by decide) (by decide)⟩

end Brokkr
namespace Brokkr

open transform_manager_t

instance : IsTotal transform_handle_t levelLe :=
  ⟨fun a b => Nat.le_total a.level b.level⟩

instance : IsTrans transform_handle_t levelLe :=
  ⟨fun _ _ _ hab hbc => Nat.le_trans hab hbc⟩

/-- C4, counterexample: `std::sort` guarantees only a level-ascending
permutation, not stability: for two records of equal level, the reversed
order is also an admissible `std::sort` outcome, so the claim that ties
always keep their original relative dense order is not guaranteed by the
code (which calls `std::sort`, not `std::stable_sort`). -/
theorem claim_C4_counterexample :
    IsCppSortResult
      [⟨⟨0, 0⟩, NULL_HANDLE, 0⟩, ⟨⟨1, 0⟩, NULL_HANDLE, 0⟩]
      [⟨⟨1, 0⟩, NULL_HANDLE, 0⟩, ⟨⟨0, 0⟩, NULL_HANDLE, 0⟩] ∧
    ([(⟨⟨1, 0⟩, NULL_HANDLE, 0⟩ : transform_handle_t), ⟨⟨0, 0⟩, NULL_HANDLE, 0⟩] ≠
      [⟨⟨0, 0⟩, NULL_HANDLE, 0⟩, ⟨⟨1, 0⟩, NULL_HANDLE, 0⟩]) := by
  refine ⟨⟨?_, ?_⟩, by decide⟩
  · exact List.Perm.swap _ _ _
  · simp [List.pairwise_cons]

/-- C4, amended: `sortTransforms` sorts the `(handle, parentHandle,
level)` records by `level` ascending: the order it applies is an
admissible `std::sort` outcome — a permutation of the records that is
pairwise non-descending in `level`.  Stability is not guaranteed. -/
theorem claim_C4_amended (l : List transform_handle_t) :
    IsCppSortResult l (l.insertionSort levelLe) :=
  ⟨List.perm_insertionSort levelLe l, List.sorted_insertionSort levelLe l⟩

end Brokkr
namespace Brokkr

theorem card_filter_range_eq_countP (m : Nat) (q : Nat → Bool) :
    ((Finset.range m).filter (fun i => q i = true)).card = (List.range m).countP q := by
  induction m with
  | zero => simp
  | succ k ih =>
    rw [Finset.range_succ, Finset.filter_insert, List.range_succ, List.countP_append]
    by_cases hq : q k = true
    · rw [if_pos hq, Finset.card_insert_of_not_mem (by simp), ih]
      simp [hq, List.countP_cons]
    · rw [if_neg hq, ih]
      simp [List.countP_cons, hq]

theorem countP_range_getD {β : Type} (l : List β) (p : β → Bool) (d : β) :
    (List.range l.length).countP (fun i => p (l.getD i d)) = l.countP p := by
  induction l with
  | nil => simp
  | cons x xs ih =>
    show (List.range (xs.length + 1)).countP _ = _
    rw [List.range_succ_eq_map, List.countP_cons, List.countP_map]
    have hcomp : ((fun i => p ((x :: xs).getD i d)) ∘ Nat.succ) = fun i => p (xs.getD i d) := by
      funext i
      simp
    rw [hcomp, ih, List.countP_cons]
    simp

theorem countP_congr_getD {β : Type} (p : β → Bool) (d : β) :
    ∀ (l1 l2 : List β), l1.length = l2.length →
      (∀ i, i < l1.length → p (l1.getD i d) = p (l2.getD i d)) →
      l1.countP p = l2.countP p := by
  intro l1
  induction l1 with
  | nil =>
    intro l2 hlen _
    cases l2 with
    | nil => rfl
    | cons y ys => simp at hlen
  | cons x xs ih =>
    intro l2 hlen hpt
    cases l2 with
    | nil => simp at hlen
    | cons y ys =>
      rw [List.countP_cons, List.countP_cons]
      have h0 := hpt 0 (Nat.succ_pos _)
      simp only [List.getD_cons_zero] at h0
      rw [h0, ih ys (by simpa using hlen) ?_]
      intro i hi
      have := hpt (i + 1) (by simpa using Nat.succ_lt_succ hi)
      simpa using this

namespace packed_freelist_t

variable {α : Type}

theorem exists_owner (pf : packed_freelist_t α) (hpw : pf.pwf) (d : Nat)
    (hd : d < pf.dense.length) :
    ∃ j, j < pf.sparse.length ∧ (pf.slotAt j).occupied = true ∧
      (pf.slotAt j).densePos = d := by
  classical
  set T : Finset ℕ :=
    (Finset.range pf.sparse.length).filter (fun i => (pf.slotAt i).occupied = true) with hT
  have hcard : T.card = pf.dense.length := by
    rw [hT, card_filter_range_eq_countP]
    have hb : (List.range pf.sparse.length).countP (fun i => (pf.slotAt i).occupied) =
        pf.sparse.countP (fun s => s.occupied) :=
      countP_range_getD pf.sparse (fun s => s.occupied) emptySlot
    rw [hb, List.countP_eq_length_filter]
    exact hpw.1
  have hmaps : ∀ i ∈ T, (pf.slotAt i).densePos ∈ Finset.range pf.dense.length := by
    intro i hi
    rw [hT, Finset.mem_filter, Finset.mem_range] at hi
    rw [Finset.mem_range]
    exact hpw.2.1 i hi.1 hi.2
  have hinj : Set.InjOn (fun i => (pf.slotAt i).densePos) T := by
    intro i hi j hj hij
    rw [Finset.coe_filter] at hi hj
    rcases hi with ⟨hi1, hi2⟩
    rcases hj with ⟨hj1, hj2⟩
    rw [Finset.mem_range] at hi1 hj1
    exact hpw.2.2.1 i hi1 j hj1 hi2 hj2 hij
  have himg : T.image (fun i => (pf.slotAt i).densePos) = Finset.range pf.dense.length := by
    apply Finset.eq_of_subset_of_card_le
    · intro x hx
      rw [Finset.mem_image] at hx
      rcases hx with ⟨i, hi, rfl⟩
      exact hmaps i hi
    · rw [Finset.card_image_of_injOn hinj, hcard, Finset.card_range]
  have hd' : d ∈ T.image (fun i => (pf.slotAt i).densePos) := by
    rw [himg, Finset.mem_range]
    exact hd
  rw [Finset.mem_image] at hd'
  rcases hd' with ⟨j, hj, hjd⟩
  rw [hT, Finset.mem_filter, Finset.mem_range] at hj
  exact ⟨j, hj.1, hj.2, hjd⟩

theorem idOfDense_eq_some (pf : packed_freelist_t α) (hpw : pf.pwf) (d : Nat)
    (hd : d < pf.dense.length) :
    ∃ j, pf.idOfDense d = some j ∧ j < pf.sparse.length ∧
      (pf.slotAt j).occupied = true ∧ (pf.slotAt j).densePos = d := by
  rcases exists_owner pf hpw d hd with ⟨j0, hj0l, hj0o, hj0d⟩
  have hsome : (pf.idOfDense d).isSome = true :=
    scanOwner_isSome pf.sparse d j0 hj0l hj0o hj0d
  cases hj : pf.idOfDense d with
  | none => rw [hj] at hsome; simp at hsome
  | some j =>
    rcases scanOwner_spec pf.sparse d j hj with ⟨h1, h2, h3⟩
    exact ⟨j, rfl, h1, h2, h3⟩

theorem getIdFromIndex_spec (pf : packed_freelist_t α) (hpw : pf.pwf) (d : Nat)
    (hd : d < pf.dense.length) :
    pf.isValid (pf.getIdFromIndex d) = true ∧
      (pf.slotAt (pf.getIdFromIndex d).index_).densePos = d := by
  rcases idOfDense_eq_some pf hpw d hd with ⟨j, hj, hjl, hjo, hjd⟩
  rw [getIdFromIndex, hj]
  constructor
  · rw [isValid_iff]
    exact ⟨hjl, hjo, rfl⟩
  · exact hjd

theorem valid_eq_getIdFromIndex (pf : packed_freelist_t α) (hpw : pf.pwf)
    (h : handle_t) (hv : pf.isValid h = true) :
    pf.getIdFromIndex (pf.slotAt h.index_).densePos = h := by
  rcases (isValid_iff pf h).1 hv with ⟨hl, ho, hg⟩
  have hd : (pf.slotAt h.index_).densePos < pf.dense.length :=
    valid_densePos_lt pf h hpw hv
  rcases idOfDense_eq_some pf hpw _ hd with ⟨j, hj, hjl, hjo, hjd⟩
  rw [getIdFromIndex, hj]
  have hji : j = h.index_ := hpw.2.2.1 j hjl h.index_ hl hjo ho hjd
  subst hji
  show (⟨h.index_, (pf.slotAt h.index_).generation⟩ : handle_t) = h
  rw [hg]

end packed_freelist_t

end Brokkr
namespace Brokkr

namespace packed_freelist_t

variable {α : Type}

theorem swap_sparse_length (pf : packed_freelist_t α) (a b : handle_t) :
    (pf.swap a b).sparse.length = pf.sparse.length := by
  unfold swap
  split <;> simp

theorem swap_dense_length (pf : packed_freelist_t α) (a b : handle_t) :
    (pf.swap a b).dense.length = pf.dense.length := by
  unfold swap
  split
  · simp [length_listSwap]
  · rfl

theorem swap_freeList (pf : packed_freelist_t α) (a b : handle_t) :
    (pf.swap a b).freeList = pf.freeList := by
  unfold swap
  split <;> rfl

theorem and_true_decomp {x y : Bool} (h : (x && y) = true) : x = true ∧ y = true := by
  constructor
  · cases hx : x
    · rw [hx] at h; simp at h
    · rfl
  · cases hy : y
    · rw [hy, Bool.and_false] at h; simp at h
    · rfl

theorem swap_slot_fields (pf : packed_freelist_t α) (a b : handle_t)
    (hva : pf.isValid a = true) (hvb : pf.isValid b = true) (i : Nat) :
    ((pf.swap a b).slotAt i).occupied = (pf.slotAt i).occupied ∧
      ((pf.swap a b).slotAt i).generation = (pf.slotAt i).generation := by
  have hla : a.index_ < pf.sparse.length := ((isValid_iff pf a).1 hva).1
  have hlb : b.index_ < pf.sparse.length := ((isValid_iff pf b).1 hvb).1
  have hoa : (pf.slotAt a.index_).occupied = true := ((isValid_iff pf a).1 hva).2.1
  have hob : (pf.slotAt b.index_).occupied = true := ((isValid_iff pf b).1 hvb).2.1
  rw [swap_eq_of_valid pf a b hva hvb]
  show (((pf.sparse.set a.index_ _).set b.index_ _).getD i emptySlot).occupied = _ ∧
    (((pf.sparse.set a.index_ _).set b.index_ _).getD i emptySlot).generation = _
  by_cases hbi : b.index_ = i
  · subst hbi
    rw [getD_set_self _ _ _ _ (by simpa using hlb)]
    exact ⟨hob.symm, rfl⟩
  · rw [getD_set_ne _ _ _ _ _ hbi]
    by_cases hai : a.index_ = i
    · subst hai
      rw [getD_set_self _ _ _ _ hla]
      exact ⟨hoa.symm, rfl⟩
    · rw [getD_set_ne _ _ _ _ _ hai]
      exact ⟨rfl, rfl⟩

theorem swap_isValid (pf : packed_freelist_t α) (a b : handle_t) (h : handle_t) :
    (pf.swap a b).isValid h = pf.isValid h := by
  cases hv : (pf.isValid a && pf.isValid b) with
  | false => rw [swap_eq_of_invalid pf a b hv]
  | true =>
    rcases and_true_decomp hv with ⟨hva, hvb⟩
    rcases swap_slot_fields pf a b hva hvb h.index_ with ⟨ho, hg⟩
    unfold isValid
    rw [ho, hg, swap_sparse_length]

theorem swap_densePos_a (pf : packed_freelist_t α) (a b : handle_t)
    (hva : pf.isValid a = true) (hvb : pf.isValid b = true) :
    ((pf.swap a b).slotAt a.index_).densePos = (pf.slotAt b.index_).densePos := by
  have hla : a.index_ < pf.sparse.length := ((isValid_iff pf a).1 hva).1
  rw [swap_eq_of_valid pf a b hva hvb]
  show (((pf.sparse.set a.index_ _).set b.index_ _).getD a.index_ emptySlot).densePos = _
  by_cases hab : b.index_ = a.index_
  · rw [hab]
    rw [getD_set_self _ _ _ _ (by simpa using hla)]
  · rw [getD_set_ne _ _ _ _ _ hab, getD_set_self _ _ _ _ hla]

theorem swap_densePos_b (pf : packed_freelist_t α) (a b : handle_t)
    (hva : pf.isValid a = true) (hvb : pf.isValid b = true) :
    ((pf.swap a b).slotAt b.index_).densePos = (pf.slotAt a.index_).densePos := by
  have hlb : b.index_ < pf.sparse.length := ((isValid_iff pf b).1 hvb).1
  rw [swap_eq_of_valid pf a b hva hvb]
  show (((pf.sparse.set a.index_ _).set b.index_ _).getD b.index_ emptySlot).densePos = _
  rw [getD_set_self _ _ _ _ (by simpa using hlb)]

theorem swap_densePos_other (pf : packed_freelist_t α) (a b : handle_t)
    (hva : pf.isValid a = true) (hvb : pf.isValid b = true) (i : Nat)
    (hia : i ≠ a.index_) (hib : i ≠ b.index_) :
    ((pf.swap a b).slotAt i).densePos = (pf.slotAt i).densePos := by
  rw [swap_eq_of_valid pf a b hva hvb]
  show (((pf.sparse.set a.index_ _).set b.index_ _).getD i emptySlot).densePos = _
  rw [getD_set_ne _ _ _ _ _ (Ne.symm hib), getD_set_ne _ _ _ _ _ (Ne.symm hia)]
  rfl

theorem eq_of_valid_same_index (pf : packed_freelist_t α) (h g : handle_t)
    (hvh : pf.isValid h = true) (hvg : pf.isValid g = true)
    (hi : h.index_ = g.index_) : h = g := by
  by_contra hne
  exact index_ne_of_valid_ne pf h g hvh hvg hne hi

theorem swap_get (pf : packed_freelist_t α) (a b : handle_t) (hpw : pf.pwf)
    (h : handle_t) : (pf.swap a b).get h = pf.get h := by
  cases hv : (pf.isValid a && pf.isValid b) with
  | false => rw [swap_eq_of_invalid pf a b hv]
  | true =>
    rcases and_true_decomp hv with ⟨hva, hvb⟩
    cases hvh : pf.isValid h with
    | false =>
      have hvh' : (pf.swap a b).isValid h = false := by rw [swap_isValid]; exact hvh
      rw [get_invalid _ _ hvh', get_invalid _ _ hvh]
    | true =>
      have hvh' : (pf.swap a b).isValid h = true := by rw [swap_isValid]; exact hvh
      have hda : (pf.slotAt a.index_).densePos < pf.dense.length :=
        valid_densePos_lt pf a hpw hva
      have hdb : (pf.slotAt b.index_).densePos < pf.dense.length :=
        valid_densePos_lt pf b hpw hvb
      have hgetidx : ∀ q : packed_freelist_t α, ∀ hq : q.isValid h = true,
          q.get h = q.dense[(q.slotAt h.index_).densePos]? := by
        intro q hq
        rw [get, getIndexFromId, if_pos hq, Option.bind]
      rw [hgetidx _ hvh', hgetidx _ hvh]
      have hdense : (pf.swap a b).dense =
          listSwap pf.dense (pf.slotAt a.index_).densePos (pf.slotAt b.index_).densePos := by
        rw [swap_eq_of_valid pf a b hva hvb]
      by_cases hha : h.index_ = a.index_
      · have hheq : h = a := eq_of_valid_same_index pf h a hvh hva hha
        subst hheq
        rw [swap_densePos_a pf h b hva hvb, hdense]
        exact listSwap_getElem?_snd _ _ _ hda hdb
      · by_cases hhb : h.index_ = b.index_
        · have hheq : h = b := eq_of_valid_same_index pf h b hvh hvb hhb
          subst hheq
          rw [swap_densePos_b pf a h hva hvb, hdense]
          exact listSwap_getElem?_fst _ _ _ hda hdb
        · rw [swap_densePos_other pf a b hva hvb h.index_ hha hhb, hdense]
          have hdha : (pf.slotAt h.index_).densePos ≠ (pf.slotAt a.index_).densePos :=
            densePos_ne_of_valid_ne pf h a hpw hvh hva
              (fun hx => hha (by rw [hx]))
          have hdhb : (pf.slotAt h.index_).densePos ≠ (pf.slotAt b.index_).densePos :=
            densePos_ne_of_valid_ne pf h b hpw hvh hvb
              (fun hx => hhb (by rw [hx]))
          exact listSwap_getElem?_other _ _ _ _ hdha hdhb

end packed_freelist_t

end Brokkr
namespace Brokkr

namespace packed_freelist_t

variable {α : Type}

theorem swap_slotAt (pf : packed_freelist_t α) (a b : handle_t)
    (hva : pf.isValid a = true) (hvb : pf.isValid b = true) (i : Nat) :
    (pf.swap a b).slotAt i =
      if i = b.index_ then
        ⟨(pf.slotAt a.index_).densePos, (pf.slotAt b.index_).generation, true⟩
      else if i = a.index_ then
        ⟨(pf.slotAt b.index_).densePos, (pf.slotAt a.index_).generation, true⟩
      else pf.slotAt i := by
  have hla : a.index_ < pf.sparse.length := ((isValid_iff pf a).1 hva).1
  have hlb : b.index_ < pf.sparse.length := ((isValid_iff pf b).1 hvb).1
  rw [swap_eq_of_valid pf a b hva hvb]
  show ((pf.sparse.set a.index_ _).set b.index_ _).getD i emptySlot = _
  by_cases hib : i = b.index_
  · subst hib
    rw [if_pos rfl, getD_set_self _ _ _ _ (by simpa using hlb)]
  · rw [if_neg hib, getD_set_ne _ _ _ _ _ (fun hx => hib hx.symm)]
    by_cases hia : i = a.index_
    · subst hia
      rw [if_pos rfl, getD_set_self _ _ _ _ hla]
    · rw [if_neg hia, getD_set_ne _ _ _ _ _ (fun hx => hia hx.symm)]
      rfl

theorem swap_pwf (pf : packed_freelist_t α) (a b : handle_t) (hpw : pf.pwf) :
    (pf.swap a b).pwf := by
  cases hv : (pf.isValid a && pf.isValid b) with
  | false => rw [swap_eq_of_invalid pf a b hv]; exact hpw
  | true =>
    rcases and_true_decomp hv with ⟨hva, hvb⟩
    have hla : a.index_ < pf.sparse.length := ((isValid_iff pf a).1 hva).1
    have hlb : b.index_ < pf.sparse.length := ((isValid_iff pf b).1 hvb).1
    have hoa : (pf.slotAt a.index_).occupied = true := ((isValid_iff pf a).1 hva).2.1
    have hob : (pf.slotAt b.index_).occupied = true := ((isValid_iff pf b).1 hvb).2.1
    have hda : (pf.slotAt a.index_).densePos < pf.dense.length :=
      valid_densePos_lt pf a hpw hva
    have hdb : (pf.slotAt b.index_).densePos < pf.dense.length :=
      valid_densePos_lt pf b hpw hvb
    have hlen : (pf.swap a b).sparse.length = pf.sparse.length := swap_sparse_length pf a b
    have hdlen : (pf.swap a b).dense.length = pf.dense.length := swap_dense_length pf a b
    have hfields := swap_slot_fields pf a b hva hvb
    have hslot := swap_slotAt pf a b hva hvb
    refine ⟨?_, ?_, ?_, ?_, ?_, ?_⟩
    · rw [hdlen, ← List.countP_eq_length_filter,
        countP_congr_getD (fun s => s.occupied) emptySlot (pf.swap a b).sparse pf.sparse
          hlen (fun i _ => (hfields i).1),
        List.countP_eq_length_filter]
      exact hpw.1
    · intro i hi hocc
      rw [hlen] at hi
      rw [hdlen]
      have hocc' : (pf.slotAt i).occupied = true := by
        rw [← (hfields i).1]
        exact hocc
      rw [hslot i]
      by_cases hib : i = b.index_
      · rw [if_pos hib]
        exact hda
      · rw [if_neg hib]
        by_cases hia : i = a.index_
        · rw [if_pos hia]
          exact hdb
        · rw [if_neg hia]
          exact hpw.2.1 i hi hocc'
    · intro i hi j hj hocci hoccj heq
      rw [hlen] at hi hj
      have hoi : ((pf.swap a b).slotAt i).occupied = true := hocci
      have hoj : ((pf.swap a b).slotAt j).occupied = true := hoccj
      have hoi' : (pf.slotAt i).occupied = true := by rw [← (hfields i).1]; exact hoi
      have hoj' : (pf.slotAt j).occupied = true := by rw [← (hfields j).1]; exact hoj
      rw [hslot i, hslot j] at heq
      by_cases hib : i = b.index_
      · rw [if_pos hib] at heq
        by_cases hjb : j = b.index_
        · rw [hib, hjb]
        · rw [if_neg hjb] at heq
          by_cases hja : j = a.index_
          · rw [if_pos hja] at heq
            have : a.index_ = b.index_ :=
              hpw.2.2.1 a.index_ hla b.index_ hlb hoa hob heq
            rw [hib, hja, this]
          · rw [if_neg hja] at heq
            have : a.index_ = j := hpw.2.2.1 a.index_ hla j hj hoa hoj' heq
            exact absurd this.symm hja
      · rw [if_neg hib] at heq
        by_cases hia : i = a.index_
        · rw [if_pos hia] at heq
          by_cases hjb : j = b.index_
          · rw [if_pos hjb] at heq
            have : b.index_ = a.index_ :=
              hpw.2.2.1 b.index_ hlb a.index_ hla hob hoa heq
            rw [hia, hjb, this]
          · rw [if_neg hjb] at heq
            by_cases hja : j = a.index_
            · rw [hia, hja]
            · rw [if_neg hja] at heq
              have : b.index_ = j := hpw.2.2.1 b.index_ hlb j hj hob hoj' heq
              exact absurd this.symm hjb
        · rw [if_neg hia] at heq
          by_cases hjb : j = b.index_
          · rw [if_pos hjb] at heq
            have : i = a.index_ := hpw.2.2.1 i hi a.index_ hla hoi' hoa heq
            exact absurd this hia
          · rw [if_neg hjb] at heq
            by_cases hja : j = a.index_
            · rw [if_pos hja] at heq
              have : i = b.index_ := hpw.2.2.1 i hi b.index_ hlb hoi' hob heq
              exact absurd this hib
            · rw [if_neg hja] at heq
              exact hpw.2.2.1 i hi j hj hoi' hoj' heq
    · intro x hx
      rw [swap_freeList] at hx
      rcases hpw.2.2.2.1 x hx with ⟨hxl, hxo⟩
      have hxa : x ≠ a.index_ := by
        intro hxx
        rw [hxx, hoa] at hxo
        simp at hxo
      have hxb : x ≠ b.index_ := by
        intro hxx
        rw [hxx, hob] at hxo
        simp at hxo
      refine ⟨by rw [hlen]; exact hxl, ?_⟩
      rw [hslot x, if_neg hxb, if_neg hxa]
      exact hxo
    · rw [swap_freeList]
      exact hpw.2.2.2.2.1
    · intro i hi hocc
      rw [hlen] at hi
      rw [swap_freeList]
      apply hpw.2.2.2.2.2 i hi
      rw [hslot i] at hocc
      by_cases hib : i = b.index_
      · rw [if_pos hib] at hocc
        simp at hocc
      · rw [if_neg hib] at hocc
        by_cases hia : i = a.index_
        · rw [if_pos hia] at hocc
          simp at hocc
        · rw [if_neg hia] at hocc
          exact hocc

end packed_freelist_t

end Brokkr
namespace Brokkr

namespace packed_freelist_t

variable {α : Type}

theorem swap_slotAt_other (pf : packed_freelist_t α) (a b : handle_t)
    (hva : pf.isValid a = true) (hvb : pf.isValid b = true) (i : Nat)
    (hia : i ≠ a.index_) (hib : i ≠ b.index_) :
    (pf.swap a b).slotAt i = pf.slotAt i := by
  rw [swap_slotAt pf a b hva hvb i, if_neg hib, if_neg hia]

theorem eq_of_valid_same_densePos (pf : packed_freelist_t α) (h g : handle_t)
    (hpw : pf.pwf) (hvh : pf.isValid h = true) (hvg : pf.isValid g = true)
    (hd : (pf.slotAt h.index_).densePos = (pf.slotAt g.index_).densePos) : h = g := by
  by_contra hne
  exact densePos_ne_of_valid_ne pf h g hpw hvh hvg hne hd

end packed_freelist_t

namespace transform_manager_t

open packed_freelist_t

/-- Post-condition of the reorder loop of `sortTransforms`, relating the
result to the start state `s`, start position `i` and record list `ord`. -/
def applyOrderInv (s res : transform_manager_t) (i : Nat)
    (ord : List transform_handle_t) : Prop :=
  (∀ k, (hk : k < ord.length) →
    res.transform_.getIndexFromId (ord.get ⟨k, hk⟩).id = some (i + k)) ∧
  (∀ k, (hk : k < ord.length) →
    res.parent_.getD (i + k) NULL_HANDLE = (ord.get ⟨k, hk⟩).parent) ∧
  (∀ h, res.transform_.get h = s.transform_.get h) ∧
  (∀ h, res.transform_.isValid h = s.transform_.isValid h) ∧
  res.transform_.pwf ∧
  (res.transform_.sparse.length = s.transform_.sparse.length ∧
    res.transform_.dense.length = s.transform_.dense.length ∧
    res.parent_.length = s.parent_.length ∧
    res.world_ = s.world_ ∧ res.hierarchy_changed_ = s.hierarchy_changed_) ∧
  (∀ j, j < i → res.parent_.getD j NULL_HANDLE = s.parent_.getD j NULL_HANDLE) ∧
  (∀ h, s.transform_.isValid h = true →
    (s.transform_.slotAt h.index_).densePos < i →
    res.transform_.slotAt h.index_ = s.transform_.slotAt h.index_)

theorem applyOrder_spec :
    ∀ (ord : List transform_handle_t) (s : transform_manager_t) (i : Nat),
      s.transform_.pwf →
      s.transform_.dense.length ≤ s.parent_.length →
      i + ord.length = s.transform_.dense.length →
      (∀ t ∈ ord, s.transform_.isValid t.id = true) →
      (ord.map (fun t => t.id)).Nodup →
      (∀ t ∈ ord, i ≤ (s.transform_.slotAt t.id.index_).densePos) →
      applyOrderInv s (applyOrder s i ord) i ord := by
  intro ord
  induction ord with
  | nil =>
    intro s i hpw hpl hcnt hval hnd hge
    exact ⟨fun k hk => absurd hk (by simp), fun k hk => absurd hk (by simp),
      fun h => rfl, fun h => rfl, hpw, ⟨rfl, rfl, rfl, rfl, rfl⟩,
      fun j hj => rfl, fun h hv hd => rfl⟩
  | cons t rest ih =>
    intro s i hpw hpl hcnt hval hnd hge
    have hicnt : i < s.transform_.dense.length := by
      have : rest.length + 1 = (t :: rest).length := rfl
      omega
    -- the handle currently at position i
    have hx := getIdFromIndex_spec s.transform_ hpw i hicnt
    set x := s.transform_.getIdFromIndex i with hxdef
    have hvx : s.transform_.isValid x = true := hx.1
    have hdx : (s.transform_.slotAt x.index_).densePos = i := hx.2
    have hvt : s.transform_.isValid t.id = true := hval t (by simp)
    have hdt : i ≤ (s.transform_.slotAt t.id.index_).densePos := hge t (by simp)
    -- the step state
    set s1 : transform_manager_t := applyOrderStep s i t with hs1
    have hs1t : s1.transform_ = s.transform_.swap x t.id := rfl
    have hs1p : s1.parent_ = s.parent_.set i t.parent := rfl
    have hs1w : s1.world_ = s.world_ := rfl
    have hs1f : s1.hierarchy_changed_ = s.hierarchy_changed_ := rfl
    have hvpair : (s.transform_.isValid x && s.transform_.isValid t.id) = true := by
      rw [hvx, hvt]
      rfl
    -- slot facts after the swap
    have hslot_t : (s1.transform_.slotAt t.id.index_).densePos = i := by
      rw [hs1t, swap_densePos_b _ _ _ hvx hvt, hdx]
    have hfields : ∀ j, (s1.transform_.slotAt j).occupied = (s.transform_.slotAt j).occupied ∧
        (s1.transform_.slotAt j).generation = (s.transform_.slotAt j).generation := by
      intro j
      rw [hs1t]
      exact swap_slot_fields _ _ _ hvx hvt j
    have hval1 : ∀ h : handle_t, s1.transform_.isValid h = s.transform_.isValid h := by
      intro h
      rw [hs1t]
      exact swap_isValid _ _ _ h
    have hpw1 : s1.transform_.pwf := by
      rw [hs1t]
      exact swap_pwf _ _ _ hpw
    have hlen1s : s1.transform_.sparse.length = s.transform_.sparse.length := by
      rw [hs1t]
      exact swap_sparse_length _ _ _
    have hlen1d : s1.transform_.dense.length = s.transform_.dense.length := by
      rw [hs1t]
      exact swap_dense_length _ _ _
    have hlen1p : s1.parent_.length = s.parent_.length := by
      rw [hs1p]
      exact List.length_set _ _ _
    -- positions of remaining records in s1 are ≥ i + 1
    have hge1 : ∀ u ∈ rest, i + 1 ≤ (s1.transform_.slotAt u.id.index_).densePos := by
      intro u hu
      have hvu : s.transform_.isValid u.id = true := hval u (by simp [hu])
      have hgu : i ≤ (s.transform_.slotAt u.id.index_).densePos := hge u (by simp [hu])
      have hut : u.id ≠ t.id := by
        intro hx2
        have : t.id ∈ rest.map (fun v => v.id) := by
          rw [← hx2]
          exact List.mem_map_of_mem _ hu
        rw [List.map_cons] at hnd
        exact (List.nodup_cons.1 hnd).1 this
      by_cases hux : u.id = x
      · rw [hux, hs1t, swap_densePos_a _ _ _ hvx hvt]
        rcases Nat.lt_or_ge i (s.transform_.slotAt t.id.index_).densePos with hlt | hge2
        · omega
        · have heq2 : (s.transform_.slotAt t.id.index_).densePos = i := by omega
          have hteq : t.id = u.id := by
            apply eq_of_valid_same_densePos s.transform_ t.id u.id hpw hvt hvu
            rw [heq2, hux, hdx]
          exact absurd hteq.symm hut
      · have hslotu : s1.transform_.slotAt u.id.index_ = s.transform_.slotAt u.id.index_ := by
          rw [hs1t]
          apply swap_slotAt_other s.transform_ x t.id hvx hvt u.id.index_
          · intro hx2
            exact hux (eq_of_valid_same_index _ _ _ hvu hvx hx2)
          · intro hx2
            exact hut (eq_of_valid_same_index _ _ _ hvu hvt hx2)
        rw [hslotu]
        rcases Nat.lt_or_ge i (s.transform_.slotAt u.id.index_).densePos with hlt | hge2
        · omega
        · have heqi : (s.transform_.slotAt u.id.index_).densePos = i := by omega
          have : u.id = x := by
            apply eq_of_valid_same_densePos s.transform_ u.id x hpw hvu hvx
            rw [heqi, hdx]
          exact absurd this hux
    have hval1' : ∀ u ∈ rest, s1.transform_.isValid u.id = true := by
      intro u hu
      rw [hval1]
      exact hval u (by simp [hu])
    have hnd1 : (rest.map (fun v => v.id)).Nodup := by
      rw [List.map_cons] at hnd
      exact (List.nodup_cons.1 hnd).2
    have hcnt1 : (i + 1) + rest.length = s1.transform_.dense.length := by
      rw [hlen1d]
      have : (t :: rest).length = rest.length + 1 := rfl
      omega
    have hpl1 : s1.transform_.dense.length ≤ s1.parent_.length := by
      rw [hlen1d, hlen1p]
      exact hpl
    have main := ih s1 (i + 1) hpw1 hpl1 hcnt1 hval1' hnd1 hge1
    rcases main with ⟨ma, mb, mc, md, me, ⟨mf1, mf2, mf3, mf4, mf5⟩, mg, mi⟩
    have happly : applyOrder s i (t :: rest) = applyOrder s1 (i + 1) rest := rfl
    rw [applyOrderInv, happly]
    -- t.id is valid in s1 and sits at position i, below i+1, so the rest leaves it alone
    have hvt1 : s1.transform_.isValid t.id = true := by
      rw [hval1]
      exact hvt
    have hslot_fin : (applyOrder s1 (i + 1) rest).transform_.slotAt t.id.index_ =
        s1.transform_.slotAt t.id.index_ := by
      apply mi t.id hvt1
      rw [hslot_t]
      omega
    have hvt_fin : (applyOrder s1 (i + 1) rest).transform_.isValid t.id = true := by
      rw [md, hvt1]
    refine ⟨?_, ?_, ?_, ?_, me, ⟨?_, ?_, ?_, ?_, ?_⟩, ?_, ?_⟩
    · intro k hk
      cases k with
      | zero =>
        show (applyOrder s1 (i + 1) rest).transform_.getIndexFromId t.id = some (i + 0)
        rw [getIndexFromId, if_pos hvt_fin, hslot_fin, hslot_t]
        rfl
      | succ k' =>
        have hk' : k' < rest.length := by simpa using hk
        have := ma k' hk'
        show (applyOrder s1 (i + 1) rest).transform_.getIndexFromId
          (rest.get ⟨k', hk'⟩).id = some (i + (k' + 1))
        rw [this]
        congr 1
        omega
    · intro k hk
      cases k with
      | zero =>
        show (applyOrder s1 (i + 1) rest).parent_.getD (i + 0) NULL_HANDLE = t.parent
        rw [mg (i + 0) (by omega), hs1p]
        apply getD_set_self
        omega
      | succ k' =>
        have hk' : k' < rest.length := by simpa using hk
        have := mb k' hk'
        show (applyOrder s1 (i + 1) rest).parent_.getD (i + (k' + 1)) NULL_HANDLE =
          (rest.get ⟨k', hk'⟩).parent
        rw [show i + (k' + 1) = (i + 1) + k' by omega]
        exact this
    · intro h
      rw [mc h, hs1t, swap_get _ _ _ hpw h]
    · intro h
      rw [md h, hval1 h]
    · rw [mf1, hlen1s]
    · rw [mf2, hlen1d]
    · rw [mf3, hlen1p]
    · rw [mf4, hs1w]
    · rw [mf5, hs1f]
    · intro j hj
      rw [mg j (by omega), hs1p, getD_set_ne _ _ _ _ _ (by omega)]
    · intro h hv hd
      have hv1 : s1.transform_.isValid h = true := by
        rw [hval1]
        exact hv
      have hhx : h.index_ ≠ x.index_ := by
        intro hx2
        have : h = x := eq_of_valid_same_index _ _ _ hv hvx hx2
        rw [this, hdx] at hd
        omega
      have hht : h.index_ ≠ t.id.index_ := by
        intro hx2
        have : h = t.id := eq_of_valid_same_index _ _ _ hv hvt hx2
        rw [this] at hd
        omega
      have hslot1 : s1.transform_.slotAt h.index_ = s.transform_.slotAt h.index_ := by
        rw [hs1t]
        exact swap_slotAt_other s.transform_ x t.id hvx hvt h.index_ hhx hht
      rw [← hslot1]
      apply mi h hv1
      rw [hslot1]
      omega

end transform_manager_t

end Brokkr
namespace Brokkr

theorem mapM_option_spec {γ β : Type} (f : γ → Option β) :
    ∀ (xs : List γ) (l : List β), xs.mapM f = some l →
      l.length = xs.length ∧
        ∀ k, (hk : k < xs.length) → (hk2 : k < l.length) →
          f (xs.get ⟨k, hk⟩) = some (l.get ⟨k, hk2⟩) := by
  intro xs
  induction xs with
  | nil =>
    intro l hl
    rw [List.mapM_nil] at hl
    cases hl
    exact ⟨rfl, fun k hk _ => absurd hk (by simp)⟩
  | cons x rest ih =>
    intro l hl
    rw [List.mapM_cons] at hl
    cases hfx : f x with
    | none => rw [hfx] at hl; simp at hl
    | some y =>
      rw [hfx] at hl
      cases hrest : rest.mapM f with
      | none => rw [hrest] at hl; simp at hl
      | some ys =>
        rw [hrest] at hl
        simp at hl
        rcases ih ys hrest with ⟨hlen, hget⟩
        cases hl
        refine ⟨by simp [hlen], ?_⟩
        intro k hk hk2
        cases k with
        | zero => simpa using hfx
        | succ k' =>
          have hk' : k' < rest.length := by simpa using hk
          have hk2' : k' < ys.length := by simpa using hk2
          simpa using hget k' hk' hk2'

namespace transform_manager_t

open packed_freelist_t

theorem computeLevel_mono (pf : packed_freelist_t mat4) (par : List handle_t) :
    ∀ (f f' : Nat) (h : handle_t) (v : Nat), computeLevel pf par f h = some v →
      f ≤ f' → computeLevel pf par f' h = some v := by
  intro f
  induction f with
  | zero =>
    intro f' h v hv
    simp [computeLevel] at hv
  | succ g ih =>
    intro f' h v hv hle
    cases f' with
    | zero => omega
    | succ g' =>
      rw [computeLevel] at hv
      rw [computeLevel]
      cases hx : pf.getIndexFromId h with
      | none =>
        rw [hx] at hv
        exact hv
      | some p =>
        rw [hx] at hv
        have hv' : Option.map (fun x => x + 1)
            (computeLevel pf par g (par.getD p NULL_HANDLE)) = some v := hv
        cases hy : computeLevel pf par g (par.getD p NULL_HANDLE) with
        | none =>
          rw [hy] at hv'
          simp at hv'
        | some w =>
          show Option.map (fun x => x + 1)
            (computeLevel pf par g' (par.getD p NULL_HANDLE)) = some v
          rw [ih g' _ w hy (by omega)]
          rw [hy] at hv'
          exact hv'

/-- Characterization of a successful `buildOrdered` run. -/
theorem buildOrdered_spec (tm : transform_manager_t) (ord0 : List transform_handle_t)
    (hb : buildOrdered tm = some ord0) :
    ord0.length = tm.transform_.dense.length ∧
      ∀ k, (hk : k < ord0.length) →
        (ord0.get ⟨k, hk⟩).id = tm.transform_.getIdFromIndex k ∧
        (ord0.get ⟨k, hk⟩).parent = tm.parent_.getD k NULL_HANDLE ∧
        computeLevel tm.transform_ tm.parent_ (tm.transform_.dense.length + 1)
          (tm.parent_.getD k NULL_HANDLE) = some (ord0.get ⟨k, hk⟩).level := by
  rw [buildOrdered] at hb
  rcases mapM_option_spec _ _ _ hb with ⟨hlen, hget⟩
  have hlen' : ord0.length = tm.transform_.dense.length := by
    rw [hlen, List.length_range]
    rfl
  refine ⟨hlen', ?_⟩
  intro k hk
  have hkr : k < (List.range tm.transform_.getElementCount).length := by
    rw [List.length_range]
    rw [hlen'] at hk
    exact hk
  have := hget k hkr hk
  have hrk : (List.range tm.transform_.getElementCount).get ⟨k, hkr⟩ = k := by
    simp
  rw [hrk] at this
  cases hcl : computeLevel tm.transform_ tm.parent_ (tm.transform_.getElementCount + 1)
      (tm.parent_.getD k NULL_HANDLE) with
  | none => rw [hcl] at this; simp at this
  | some lv =>
    rw [hcl] at this
    have h2 : (⟨tm.transform_.getIdFromIndex k, tm.parent_.getD k NULL_HANDLE, lv⟩ :
        transform_handle_t) = ord0.get ⟨k, hk⟩ := Option.some.inj this
    refine ⟨by rw [← h2], by rw [← h2], ?_⟩
    rw [← h2]
    exact hcl

end transform_manager_t

end Brokkr
namespace Brokkr

namespace transform_manager_t

open packed_freelist_t

theorem sortTransforms_cases (tm tm' : transform_manager_t)
    (hs : sortTransforms tm = some tm') :
    ∃ ord0, buildOrdered tm = some ord0 ∧
      tm' = applyOrder tm 0 (ord0.insertionSort levelLe) := by
  rw [sortTransforms] at hs
  cases hb : buildOrdered tm with
  | none => rw [hb] at hs; simp at hs
  | some ord0 =>
    rw [hb] at hs
    simp at hs
    exact ⟨ord0, rfl, hs.symm⟩

theorem ord0_ids_nodup (tm : transform_manager_t) (hpw : tm.transform_.pwf)
    (ord0 : List transform_handle_t) (hb : buildOrdered tm = some ord0) :
    (ord0.map (fun t => t.id)).Nodup := by
  rcases buildOrdered_spec tm ord0 hb with ⟨hlen, hspec⟩
  rw [List.nodup_iff_injective_get]
  intro a b hab
  rw [List.get_map, List.get_map] at hab
  have hla : (a : Nat) < ord0.length := by
    have := a.isLt
    simpa using this
  have hlb : (b : Nat) < ord0.length := by
    have := b.isLt
    simpa using this
  have haid : (ord0.get ⟨(a : Nat), hla⟩).id = tm.transform_.getIdFromIndex (a : Nat) :=
    (hspec a hla).1
  have hbid : (ord0.get ⟨(b : Nat), hlb⟩).id = tm.transform_.getIdFromIndex (b : Nat) :=
    (hspec b hlb).1
  rw [haid, hbid] at hab
  have hsa := getIdFromIndex_spec tm.transform_ hpw (a : Nat) (by rw [← hlen]; exact hla)
  have hsb := getIdFromIndex_spec tm.transform_ hpw (b : Nat) (by rw [← hlen]; exact hlb)
  have : (a : Nat) = (b : Nat) := by
    have h1 := hsa.2
    have h2 := hsb.2
    rw [hab] at h1
    rw [h1] at h2
    exact h2
  exact Fin.ext this

/-- Core order property established by `sortTransforms`: after the sort,
whenever a node's recorded parent handle resolves to a dense position,
that position is strictly smaller than the node's. -/
theorem sorted_parent_lt (tm tm' : transform_manager_t) (hw : tm.mwf)
    (hs : sortTransforms tm = some tm') :
    ∀ i, i < tm'.transform_.dense.length →
      ∀ p, tm'.transform_.getIndexFromId (tm'.parent_.getD i NULL_HANDLE) = some p →
        p < i := by
  obtain ⟨hpw, hlw, hls⟩ := hw
  rcases sortTransforms_cases tm tm' hs with ⟨ord0, hb, htm'⟩
  rcases buildOrdered_spec tm ord0 hb with ⟨hlen0, hspec0⟩
  set ord : List transform_handle_t := ord0.insertionSort levelLe with hord
  have hperm : ord.Perm ord0 := List.perm_insertionSort levelLe ord0
  have hplen : ord.length = ord0.length := hperm.length_eq
  have hsorted : List.Pairwise levelLe ord := List.sorted_insertionSort levelLe ord0
  have hvalord : ∀ t ∈ ord, tm.transform_.isValid t.id = true := by
    intro t ht
    have ht0 : t ∈ ord0 := hperm.mem_iff.1 ht
    rcases List.mem_iff_get.1 ht0 with ⟨⟨r, hr⟩, rfl⟩
    rw [(hspec0 r hr).1]
    exact (getIdFromIndex_spec tm.transform_ hpw r (by rw [← hlen0]; exact hr)).1
  have hndord : (ord.map (fun t => t.id)).Nodup :=
    ((hperm.map (fun t => t.id)).nodup_iff).2 (ord0_ids_nodup tm hpw ord0 hb)
  have hcnt : 0 + ord.length = tm.transform_.dense.length := by
    rw [Nat.zero_add, hplen, hlen0]
  have hpl : tm.transform_.dense.length ≤ tm.parent_.length :=
    Nat.le_trans (count_le_sparse _ hpw) hls
  have inv := applyOrder_spec ord tm 0 hpw hpl hcnt hvalord hndord
    (fun t _ => Nat.zero_le _)
  rcases inv with ⟨ia, ib, ic, id_, ie, ⟨if1, if2, if3, if4, if5⟩, ig, ii⟩
  rw [← htm'] at ia ib ic id_ ie if1 if2 if3 if4 if5 ig ii
  intro i hi p hp
  have hi' : i < ord.length := by
    rw [hplen, hlen0]
    rw [if2] at hi
    exact hi
  -- the parent handle recorded at position i
  have hpar : tm'.parent_.getD i NULL_HANDLE = (ord.get ⟨i, hi'⟩).parent := by
    have := ib i hi'
    rw [Nat.zero_add] at this
    exact this
  set pu : handle_t := (ord.get ⟨i, hi'⟩).parent with hpu
  rw [hpar] at hp
  -- pu is valid in tm' hence in tm
  have hvpu' : tm'.transform_.isValid pu = true := by
    cases hvv : tm'.transform_.isValid pu with
    | false =>
      rw [getIndexFromId, hvv] at hp
      simp at hp
    | true => rfl
  have hvpu : tm.transform_.isValid pu = true := by
    rw [← id_ pu]
    exact hvpu'
  -- pre-sort dense position of pu
  set q : Nat := (tm.transform_.slotAt pu.index_).densePos with hq
  have hqlt : q < tm.transform_.dense.length := valid_densePos_lt _ pu hpw hvpu
  have hpuq : tm.transform_.getIdFromIndex q = pu :=
    valid_eq_getIdFromIndex tm.transform_ hpw pu hvpu
  have hqord0 : q < ord0.length := by
    rw [hlen0]
    exact hqlt
  have hpuid : (ord0.get ⟨q, hqord0⟩).id = pu := by
    rw [(hspec0 q hqord0).1]
    exact hpuq
  -- the entry of pu inside the sorted list
  have hmem : ord0.get ⟨q, hqord0⟩ ∈ ord := hperm.mem_iff.2 (ord0.get_mem q hqord0)
  rcases List.mem_iff_get.1 hmem with ⟨⟨kq, hkq⟩, hkqe⟩
  have hidx_pu : tm'.transform_.getIndexFromId pu = some kq := by
    have := ia kq hkq
    rw [hkqe, hpuid] at this
    rw [Nat.zero_add] at this
    exact this
  have hpkq : p = kq := by
    rw [hidx_pu] at hp
    exact (Option.some.inj hp).symm
  -- levels: the entry at i has level one more than the entry of pu
  have hiord0 : ord.get ⟨i, hi'⟩ ∈ ord0 := hperm.mem_iff.1 (ord.get_mem i hi')
  rcases List.mem_iff_get.1 hiord0 with ⟨⟨r, hr⟩, hre⟩
  have hrpar : tm.parent_.getD r NULL_HANDLE = pu := by
    have := (hspec0 r hr).2.1
    rw [hre] at this
    exact this.symm
  have hrlev : computeLevel tm.transform_ tm.parent_ (tm.transform_.dense.length + 1)
      (tm.parent_.getD r NULL_HANDLE) = some (ord.get ⟨i, hi'⟩).level := by
    have := (hspec0 r hr).2.2
    rw [hre] at this
    exact this
  have hidx_pu_tm : tm.transform_.getIndexFromId pu = some q := by
    rw [getIndexFromId, if_pos hvpu]
  have hlev_step : ∃ w0, computeLevel tm.transform_ tm.parent_ tm.transform_.dense.length
      (tm.parent_.getD q NULL_HANDLE) = some w0 ∧
      (ord.get ⟨i, hi'⟩).level = w0 + 1 := by
    rw [hrpar] at hrlev
    rw [computeLevel, hidx_pu_tm] at hrlev
    have hrlev' : Option.map (fun x => x + 1)
        (computeLevel tm.transform_ tm.parent_ tm.transform_.dense.length
          (tm.parent_.getD q NULL_HANDLE)) = some (ord.get ⟨i, hi'⟩).level := hrlev
    cases hy : computeLevel tm.transform_ tm.parent_ tm.transform_.dense.length
        (tm.parent_.getD q NULL_HANDLE) with
    | none =>
      rw [hy] at hrlev'
      simp at hrlev'
    | some w0 =>
      rw [hy] at hrlev'
      refine ⟨w0, rfl, ?_⟩
      have h3 : w0 + 1 = (ord.get ⟨i, hi'⟩).level := by
        simpa using Option.some.inj hrlev'
      omega
  rcases hlev_step with ⟨w0, hw0, hlevi⟩
  have hqlev : (ord0.get ⟨q, hqord0⟩).level = w0 := by
    have hq2 := (hspec0 q hqord0).2.2
    have := computeLevel_mono tm.transform_ tm.parent_ tm.transform_.dense.length
      (tm.transform_.dense.length + 1) (tm.parent_.getD q NULL_HANDLE) w0 hw0 (by omega)
    rw [this] at hq2
    exact (Option.some.inj hq2).symm
  -- sortedness forces p < i
  have hlevp : (ord.get ⟨kq, hkq⟩).level = w0 := by
    rw [hkqe]
    exact hqlev
  rcases Nat.lt_or_ge p i with hlt | hge
  · exact hlt
  · exfalso
    subst hpkq
    rcases Nat.eq_or_lt_of_le hge with heq | hlt2
    · have : ord.get ⟨p, hkq⟩ = ord.get ⟨i, hi'⟩ := by
        congr 1
        exact Fin.ext heq.symm
      rw [this] at hlevp
      omega
    · have := (List.pairwise_iff_get.1 hsorted) ⟨i, hi'⟩ ⟨p, hkq⟩ hlt2
      rw [levelLe] at this
      omega

end transform_manager_t

end Brokkr
namespace Brokkr

namespace transform_manager_t

open packed_freelist_t

theorem sorted_ancestor_lt (tm tm' : transform_manager_t) (hw : tm.mwf)
    (hs : sortTransforms tm = some tm') :
    ∀ k, ∀ i a, i < tm'.transform_.dense.length → 0 < k →
      parIter tm'.transform_ tm'.parent_ k i = some a → a < i := by
  have hstep := sorted_parent_lt tm tm' hw hs
  have hcnt : ∀ j p, tm'.transform_.getIndexFromId (tm'.parent_.getD j NULL_HANDLE) =
      some p → p < tm'.transform_.dense.length := by
    intro j p hp
    have hv : tm'.transform_.isValid (tm'.parent_.getD j NULL_HANDLE) = true := by
      cases hvv : tm'.transform_.isValid (tm'.parent_.getD j NULL_HANDLE) with
      | false => rw [getIndexFromId, hvv] at hp; simp at hp
      | true => rfl
    have hpw' : tm'.transform_.pwf := by
      obtain ⟨hpw, hlw, hls⟩ := hw
      rcases sortTransforms_cases tm tm' hs with ⟨ord0, hb, htm'⟩
      rcases buildOrdered_spec tm ord0 hb with ⟨hlen0, _⟩
      have hperm : (ord0.insertionSort levelLe).Perm ord0 := List.perm_insertionSort _ _
      have inv := applyOrder_spec (ord0.insertionSort levelLe) tm 0 hpw
        (Nat.le_trans (count_le_sparse _ hpw) hls)
        (by rw [Nat.zero_add, hperm.length_eq, hlen0])
        (by
          intro t ht
          have ht0 : t ∈ ord0 := hperm.mem_iff.1 ht
          rcases List.mem_iff_get.1 ht0 with ⟨⟨r, hr⟩, rfl⟩
          rw [(buildOrdered_spec tm ord0 hb).2 r hr |>.1]
          exact (getIdFromIndex_spec tm.transform_ hpw r (by rw [← hlen0]; exact hr)).1)
        ((hperm.map (fun t => t.id)).nodup_iff.2 (ord0_ids_nodup tm hpw ord0 hb))
        (fun t _ => Nat.zero_le _)
      rw [← htm'] at inv
      exact inv.2.2.2.2.1
    have hd := valid_densePos_lt tm'.transform_ _ hpw' hv
    rw [getIndexFromId, if_pos hv] at hp
    rw [← Option.some.inj hp]
    exact hd
  intro k
  induction k with
  | zero => intro i a _ h0 _; omega
  | succ k' ih =>
    intro i a hi _ hit
    have hit' : (match parStep tm'.transform_ tm'.parent_ i with
        | some p => parIter tm'.transform_ tm'.parent_ k' p
        | none => none) = some a := hit
    cases hp : parStep tm'.transform_ tm'.parent_ i with
    | none => rw [hp] at hit'; simp at hit'
    | some p =>
      rw [hp] at hit'
      have hpi : p < i := hstep i hi p hp
      cases k' with
      | zero =>
        have : p = a := Option.some.inj hit'
        omega
      | succ k2 =>
        have hpc : p < tm'.transform_.dense.length := hcnt i p hp
        have := ih p a hpc (Nat.succ_pos _) hit'
        omega

/-- C3: after `sortTransforms()` runs, every node occupies a dense
position strictly after all of its ancestors; in particular, whenever
`parent_[i]` resolves to a valid dense index `p` during the linear pass
of `update()`, `p < i` holds, so each node's world matrix is computed
strictly after its parent's.  The forest precondition is captured by
`sortTransforms` returning a result (its depth walk terminated). -/
theorem claim_C3_topological_order (tm tm' : transform_manager_t) (hw : tm.mwf)
    (hs : sortTransforms tm = some tm') :
    (∀ i, i < tm'.transform_.dense.length →
      ∀ p, tm'.transform_.getIndexFromId (tm'.parent_.getD i NULL_HANDLE) = some p →
        p < i) ∧
    (∀ i a k, i < tm'.transform_.dense.length → 0 < k →
      parIter tm'.transform_ tm'.parent_ k i = some a → a < i) :=
  ⟨sorted_parent_lt tm tm' hw hs,
   fun i a k hi hk hit => sorted_ancestor_lt tm tm' hw hs k i a hi hk hit⟩

/-- Witness for C3 on the three-node chain scenario: its sort succeeds
and the order property holds in the sorted state. -/
theorem claim_C3_witness :
    script.stC.mwf ∧
      sortTransforms script.stC =
        some ((sortTransforms script.stC).getD transform_manager_t.empty) ∧
      ((∀ i, i < ((sortTransforms script.stC).getD
          transform_manager_t.empty).transform_.dense.length →
        ∀ p, ((sortTransforms script.stC).getD
            transform_manager_t.empty).transform_.getIndexFromId
          (((sortTransforms script.stC).getD transform_manager_t.empty).parent_.getD i
            NULL_HANDLE) = some p → p < i) ∧
      (∀ i a k, i < ((sortTransforms script.stC).getD
          transform_manager_t.empty).transform_.dense.length → 0 < k →
        parIter ((sortTransforms script.stC).getD transform_manager_t.empty).transform_
          ((sortTransforms script.stC).getD transform_manager_t.empty).parent_ k i =
          some a → a < i)) :=
  ⟨by decide, by decide,
   claim_C3_topological_order script.stC
     ((sortTransforms script.stC).getD transform_manager_t.empty) (by decide) (by decide)⟩

end transform_manager_t

end Brokkr
namespace Brokkr

namespace transform_manager_t

open packed_freelist_t

theorem parIter_add (pf : packed_freelist_t mat4) (par : List handle_t) :
    ∀ (a b i : Nat), parIter pf par (a + b) i =
      (parIter pf par a i).bind (fun j => parIter pf par b j) := by
  intro a
  induction a with
  | zero =>
    intro b i
    rw [Nat.zero_add]
    rfl
  | succ a' ih =>
    intro b i
    have hxy : a' + 1 + b = (a' + b) + 1 := by omega
    rw [hxy]
    show (match parStep pf par i with
      | some p => parIter pf par (a' + b) p
      | none => none) = _
    cases hp : parStep pf par i with
    | none =>
      show none = (match parStep pf par i with
        | some p => parIter pf par a' p
        | none => none).bind _
      rw [hp]
      rfl
    | some p =>
      show parIter pf par (a' + b) p = (match parStep pf par i with
        | some q => parIter pf par a' q
        | none => none).bind _
      rw [hp, ih b p]

theorem parIter_isSome_of_le (pf : packed_freelist_t mat4) (par : List handle_t)
    (k i : Nat) (m : Nat) (hk : parIter pf par k i = some m) :
    ∀ r, r ≤ k → (parIter pf par r i).isSome = true := by
  intro r hr
  have := parIter_add pf par r (k - r) i
  rw [show r + (k - r) = k by omega, hk] at this
  cases hx : parIter pf par r i with
  | none => rw [hx] at this; simp at this
  | some v => rfl

theorem parStep_lt (pf : packed_freelist_t mat4) (par : List handle_t)
    (hpw : pf.pwf) (i p : Nat) (hp : parStep pf par i = some p) :
    p < pf.dense.length := by
  have hv : pf.isValid (par.getD i NULL_HANDLE) = true := by
    cases hvv : pf.isValid (par.getD i NULL_HANDLE) with
    | false =>
      rw [parStep, getIndexFromId, hvv] at hp
      simp at hp
    | true => rfl
  rw [parStep, getIndexFromId, if_pos hv] at hp
  rw [← Option.some.inj hp]
  exact valid_densePos_lt pf _ hpw hv

theorem acyclic_walk_ends (pf : packed_freelist_t mat4) (par : List handle_t)
    (hpw : pf.pwf) (hA : Acyclic pf par) :
    ∀ i, i < pf.dense.length → ∃ k, k ≤ pf.dense.length ∧
      parIter pf par (k + 1) i = none := by
  intro i hi
  by_contra hno
  push_neg at hno
  have hsome : ∀ k, k ≤ pf.dense.length + 1 → (parIter pf par k i).isSome = true := by
    intro k hk
    cases k with
    | zero => rfl
    | succ k' =>
      have hne := hno k' (by omega)
      cases hx : parIter pf par (k' + 1) i with
      | none => exact absurd hx hne
      | some v => rfl
  have hmaps : ∀ k ∈ Finset.range (pf.dense.length + 2),
      (parIter pf par k i).getD 0 ∈ Finset.range pf.dense.length := by
    intro k hk
    rw [Finset.mem_range] at hk
    rw [Finset.mem_range]
    cases k with
    | zero => simpa using hi
    | succ k' =>
      have h1 : (parIter pf par k' i).isSome = true := hsome k' (by omega)
      cases hx : parIter pf par k' i with
      | none => rw [hx] at h1; simp at h1
      | some v =>
        have := parIter_add pf par k' 1 i
        rw [hx] at this
        have h2 : parIter pf par (k' + 1) i = parIter pf par 1 v := this
        cases hy : parStep pf par v with
        | none =>
          have h4 : parIter pf par 1 v = none := by
            show (match parStep pf par v with
              | some p => parIter pf par 0 p
              | none => none) = none
            rw [hy]
          rw [h4] at h2
          have := hsome (k' + 1) (by omega)
          rw [h2] at this
          simp at this
        | some p =>
          have h4 : parIter pf par 1 v = some p := by
            show (match parStep pf par v with
              | some q => parIter pf par 0 q
              | none => none) = some p
            rw [hy]
            rfl
          rw [h2, h4]
          simpa using parStep_lt pf par hpw v p hy
  have hcard : (Finset.range pf.dense.length).card <
      (Finset.range (pf.dense.length + 2)).card := by
    rw [Finset.card_range, Finset.card_range]
    omega
  rcases Finset.exists_ne_map_eq_of_card_lt_of_maps_to hcard hmaps with
    ⟨k1, hk1, k2, hk2, hne, heq⟩
  rw [Finset.mem_range] at hk1 hk2
  -- order the two indices
  rcases Nat.lt_or_ge k1 k2 with hlt | hge
  · have h1 : (parIter pf par k1 i).isSome = true := hsome k1 (by omega)
    cases hx1 : parIter pf par k1 i with
    | none => rw [hx1] at h1; simp at h1
    | some m =>
      have hm : m < pf.dense.length := by
        have := hmaps k1 (by rw [Finset.mem_range]; omega)
        rw [hx1] at this
        rw [Finset.mem_range] at this
        simpa using this
      have hx2 : parIter pf par k2 i = some m := by
        have h2 : (parIter pf par k2 i).isSome = true := hsome k2 (by omega)
        cases hy2 : parIter pf par k2 i with
        | none => rw [hy2] at h2; simp at h2
        | some m2 =>
          rw [hx1, hy2] at heq
          simp at heq
          rw [heq]
      have hcyc : parIter pf par (k2 - k1) m = some m := by
        have := parIter_add pf par k1 (k2 - k1) i
        rw [show k1 + (k2 - k1) = k2 by omega, hx2, hx1] at this
        exact this.symm
      exact hA m hm (k2 - k1) (by omega) hcyc
  · have hlt2 : k2 < k1 := by omega
    have h1 : (parIter pf par k2 i).isSome = true := hsome k2 (by omega)
    cases hx1 : parIter pf par k2 i with
    | none => rw [hx1] at h1; simp at h1
    | some m =>
      have hm : m < pf.dense.length := by
        have := hmaps k2 (by rw [Finset.mem_range]; omega)
        rw [hx1] at this
        rw [Finset.mem_range] at this
        simpa using this
      have hx2 : parIter pf par k1 i = some m := by
        have h2 : (parIter pf par k1 i).isSome = true := hsome k1 (by omega)
        cases hy2 : parIter pf par k1 i with
        | none => rw [hy2] at h2; simp at h2
        | some m2 =>
          rw [hx1, hy2] at heq
          simp at heq
          rw [heq]
      have hcyc : parIter pf par (k1 - k2) m = some m := by
        have := parIter_add pf par k2 (k1 - k2) i
        rw [show k2 + (k1 - k2) = k1 by omega, hx2, hx1] at this
        exact this.symm
      exact hA m hm (k1 - k2) (by omega) hcyc

theorem computeLevel_some_of_iter_none (pf : packed_freelist_t mat4)
    (par : List handle_t) :
    ∀ fuel k i, k < fuel → parIter pf par (k + 1) i = none →
      (computeLevel pf par fuel (par.getD i NULL_HANDLE)).isSome = true := by
  intro fuel
  induction fuel with
  | zero => intro k i hk; omega
  | succ f ih =>
    intro k i hk hnone
    have hnone' : (match parStep pf par i with
        | some p => parIter pf par k p
        | none => none) = none := hnone
    rw [computeLevel]
    cases hp : parStep pf par i with
    | none =>
      have hgi : pf.getIndexFromId (par.getD i NULL_HANDLE) = none := hp
      rw [hgi]
      rfl
    | some p =>
      have hgi : pf.getIndexFromId (par.getD i NULL_HANDLE) = some p := hp
      rw [hgi]
      show (Option.map (fun x => x + 1)
        (computeLevel pf par f (par.getD p NULL_HANDLE))).isSome = true
      rw [hp] at hnone'
      cases k with
      | zero => simp [parIter] at hnone'
      | succ k2 =>
        have := ih k2 p (by omega) hnone'
        cases hy : computeLevel pf par f (par.getD p NULL_HANDLE) with
        | none => rw [hy] at this; simp at this
        | some v => rfl

theorem mapM_isSome {γ β : Type} (f : γ → Option β) :
    ∀ xs : List γ, (∀ x ∈ xs, (f x).isSome = true) → (xs.mapM f).isSome = true := by
  intro xs
  induction xs with
  | nil => intro _; rfl
  | cons x rest ih =>
    intro hall
    rw [List.mapM_cons]
    have hx : (f x).isSome = true := hall x (by simp)
    cases hfx : f x with
    | none => rw [hfx] at hx; simp at hx
    | some y =>
      have hrest := ih (fun u hu => hall u (by simp [hu]))
      cases hr : rest.mapM f with
      | none => rw [hr] at hrest; simp at hrest
      | some ys => simp [hfx, hr]

theorem acyclic_of_walks_end (pf : packed_freelist_t mat4) (par : List handle_t)
    (hend : ∀ i, i < pf.dense.length → ∃ m, parIter pf par m i = none) :
    Acyclic pf par := by
  intro i hi k hk hcyc
  rcases hend i hi with ⟨m, hm⟩
  have hmul : ∀ q : Nat, parIter pf par (q * k) i = some i := by
    intro q
    induction q with
    | zero =>
      rw [Nat.zero_mul]
      rfl
    | succ q' ih =>
      have : (q' + 1) * k = q' * k + k := by ring
      rw [this, parIter_add pf par (q' * k) k i, ih]
      exact hcyc
  have hge : m ≤ m * k := Nat.le_mul_of_pos_right m hk
  have := parIter_add pf par m (m * k - m) i
  rw [show m + (m * k - m) = m * k by omega, hm] at this
  rw [hmul m] at this
  simp at this

end transform_manager_t

end Brokkr
namespace Brokkr

namespace transform_manager_t

open packed_freelist_t

theorem buildOrdered_isSome_of_acyclic (tm : transform_manager_t)
    (hpw : tm.transform_.pwf) (hA : Acyclic tm.transform_ tm.parent_) :
    (buildOrdered tm).isSome = true := by
  rw [buildOrdered]
  apply mapM_isSome
  intro i hi
  rw [List.mem_range] at hi
  rcases acyclic_walk_ends tm.transform_ tm.parent_ hpw hA i hi with ⟨k, hk, hnone⟩
  have hEq : tm.transform_.getElementCount = tm.transform_.dense.length := rfl
  have := computeLevel_some_of_iter_none tm.transform_ tm.parent_
    (tm.transform_.getElementCount + 1) k i (by rw [hEq]; omega) hnone
  cases hy : computeLevel tm.transform_ tm.parent_ (tm.transform_.getElementCount + 1)
      (tm.parent_.getD i NULL_HANDLE) with
  | none => rw [hy] at this; simp at this
  | some v => simp [hy]

theorem sortTransforms_isSome_of_acyclic (tm : transform_manager_t)
    (hpw : tm.transform_.pwf) (hA : Acyclic tm.transform_ tm.parent_) :
    (sortTransforms tm).isSome = true := by
  rw [sortTransforms]
  have := buildOrdered_isSome_of_acyclic tm hpw hA
  cases hy : buildOrdered tm with
  | none => rw [hy] at this; simp at this
  | some ord => simp [hy]

theorem update_isSome_of_acyclic (tm : transform_manager_t)
    (hpw : tm.transform_.pwf) (hA : Acyclic tm.transform_ tm.parent_) :
    (update tm).isSome = true := by
  rw [update]
  cases hf : tm.hierarchy_changed_ with
  | false => rfl
  | true =>
    simp only [if_true]
    have := sortTransforms_isSome_of_acyclic tm hpw hA
    cases hy : sortTransforms tm with
    | none => rw [hy] at this; simp at this
    | some s => simp [hy]

theorem cycle_all_iter_isSome (pf : packed_freelist_t mat4) (par : List handle_t)
    (i k : Nat) (hk : 0 < k) (hc : parIter pf par k i = some i) :
    ∀ r, (parIter pf par r i).isSome = true := by
  intro r
  induction r using Nat.strong_induction_on with
  | _ r ih =>
    rcases Nat.lt_or_ge k r with hlt | hge
    · have := parIter_add pf par k (r - k) i
      rw [hc] at this
      have h2 : parIter pf par r i = parIter pf par (r - k) i := by
        rw [show k + (r - k) = r by omega] at this
        exact this
      rw [h2]
      exact ih (r - k) (by omega)
    · exact parIter_isSome_of_le pf par k i i hc r hge

theorem computeLevel_none_of_all_isSome (pf : packed_freelist_t mat4)
    (par : List handle_t) :
    ∀ fuel j, (∀ m, m ≤ fuel → (parIter pf par m j).isSome = true) →
      computeLevel pf par fuel (par.getD j NULL_HANDLE) = none := by
  intro fuel
  induction fuel with
  | zero => intro j _; rfl
  | succ f ih =>
    intro j hall
    have h1 : (parIter pf par 1 j).isSome = true := hall 1 (by omega)
    cases hp : parStep pf par j with
    | none =>
      have : parIter pf par 1 j = none := by
        show (match parStep pf par j with
          | some p => parIter pf par 0 p
          | none => none) = none
        rw [hp]
      rw [this] at h1
      simp at h1
    | some p =>
      rw [computeLevel]
      have hgi : pf.getIndexFromId (par.getD j NULL_HANDLE) = some p := hp
      rw [hgi]
      show Option.map (fun x => x + 1)
        (computeLevel pf par f (par.getD p NULL_HANDLE)) = none
      rw [ih p ?_]
      · rfl
      · intro m hm
        have h3 : parIter pf par (m + 1) j = parIter pf par m p := by
          show (match parStep pf par j with
            | some q => parIter pf par m q
            | none => none) = parIter pf par m p
          rw [hp]
        rw [← h3]
        exact hall (m + 1) (by omega)

/-- C8: if the parenting relation restricted to valid handles is a forest
(no dense position returns to itself under iterated parent hops), the
depth-computation walk of `sortTransforms()` terminates for every node,
so `sortTransforms()` and `update()` produce results; if a cycle exists
among valid handles, the walk of any node on the cycle exhausts every
fuel bound — the source loop would not terminate. -/
theorem claim_C8_termination (tm : transform_manager_t) (hw : tm.mwf) :
    (Acyclic tm.transform_ tm.parent_ →
      (∀ i, i < tm.transform_.dense.length →
        (computeLevel tm.transform_ tm.parent_ (tm.transform_.dense.length + 1)
          (tm.parent_.getD i NULL_HANDLE)).isSome = true) ∧
      (sortTransforms tm).isSome = true ∧ (update tm).isSome = true) ∧
    (∀ i k, 0 < k → parIter tm.transform_ tm.parent_ k i = some i →
      ∀ fuel, computeLevel tm.transform_ tm.parent_ fuel
        (tm.parent_.getD i NULL_HANDLE) = none) := by
  constructor
  · intro hA
    refine ⟨?_, sortTransforms_isSome_of_acyclic tm hw.1 hA,
      update_isSome_of_acyclic tm hw.1 hA⟩
    intro i hi
    rcases acyclic_walk_ends tm.transform_ tm.parent_ hw.1 hA i hi with ⟨k, hk, hnone⟩
    exact computeLevel_some_of_iter_none tm.transform_ tm.parent_
      (tm.transform_.dense.length + 1) k i (by omega) hnone
  · intro i k hk hc fuel
    exact computeLevel_none_of_all_isSome tm.transform_ tm.parent_ fuel i
      (fun m _ => cycle_all_iter_isSome tm.transform_ tm.parent_ i k hk hc m)

/-- Witness for C8: the three-node chain is acyclic, so its sort and
update succeed; a one-node self-parented manager has a cycle, and its
depth walk returns nothing at every fuel. -/
theorem claim_C8_witness :
    ((sortTransforms script.stC).isSome = true ∧ (update script.stC).isSome = true) ∧
      (∀ fuel, computeLevel (script.st1.2.setParent script.h0 script.h0).2.transform_
        (script.st1.2.setParent script.h0 script.h0).2.parent_ fuel
        ((script.st1.2.setParent script.h0 script.h0).2.parent_.getD 0 NULL_HANDLE) =
        none) := by
  constructor
  · have hA : Acyclic script.stC.transform_ script.stC.parent_ := by
      apply acyclic_of_walks_end
      intro i hi
      have h3 : script.stC.transform_.dense.length = 3 := by decide
      rw [h3] at hi
      interval_cases i
      · exact ⟨1, by decide⟩
      · exact ⟨2, by decide⟩
      · exact ⟨3, by decide⟩
    exact ((claim_C8_termination script.stC (by decide)).1 hA).2
  · exact (claim_C8_termination (script.st1.2.setParent script.h0 script.h0).2
      (by decide)).2 0 1 (by decide) (by decide)

end transform_manager_t

end Brokkr
namespace Brokkr

namespace transform_manager_t

open packed_freelist_t

theorem updatePassStep_transform (s : transform_manager_t) (i : Nat) :
    (updatePassStep s i).transform_ = s.transform_ := by
  rw [updatePassStep]
  cases hx : s.transform_.getIndexFromId (s.parent_.getD i NULL_HANDLE) <;> rfl

theorem updatePassStep_parent (s : transform_manager_t) (i : Nat) :
    (updatePassStep s i).parent_ = s.parent_ := by
  rw [updatePassStep]
  cases hx : s.transform_.getIndexFromId (s.parent_.getD i NULL_HANDLE) <;> rfl

theorem updatePassStep_flag (s : transform_manager_t) (i : Nat) :
    (updatePassStep s i).hierarchy_changed_ = s.hierarchy_changed_ := by
  rw [updatePassStep]
  cases hx : s.transform_.getIndexFromId (s.parent_.getD i NULL_HANDLE) <;> rfl

theorem updatePassStep_world_length (s : transform_manager_t) (i : Nat) :
    (updatePassStep s i).world_.length = s.world_.length := by
  rw [updatePassStep]
  cases hx : s.transform_.getIndexFromId (s.parent_.getD i NULL_HANDLE) <;> simp

theorem updatePassStep_world_other (s : transform_manager_t) (i j : Nat)
    (hij : j ≠ i) : (updatePassStep s j).world_[i]? = s.world_[i]? := by
  rw [updatePassStep]
  cases hx : s.transform_.getIndexFromId (s.parent_.getD j NULL_HANDLE) with
  | none =>
    show (s.world_.set j _)[i]? = s.world_[i]?
    rw [List.getElem?_set_ne hij]
  | some p =>
    show ((s.world_.set j _).set j _)[i]? = s.world_[i]?
    rw [List.getElem?_set_ne hij, List.getElem?_set_ne hij]

theorem updatePass_transform (l : List Nat) :
    ∀ s : transform_manager_t, (updatePass s l).transform_ = s.transform_ := by
  induction l with
  | nil => intro s; rfl
  | cons j rest ih =>
    intro s
    show (updatePass (updatePassStep s j) rest).transform_ = s.transform_
    rw [ih, updatePassStep_transform]

theorem updatePass_parent (l : List Nat) :
    ∀ s : transform_manager_t, (updatePass s l).parent_ = s.parent_ := by
  induction l with
  | nil => intro s; rfl
  | cons j rest ih =>
    intro s
    show (updatePass (updatePassStep s j) rest).parent_ = s.parent_
    rw [ih, updatePassStep_parent]

theorem updatePass_world_length (l : List Nat) :
    ∀ s : transform_manager_t, (updatePass s l).world_.length = s.world_.length := by
  induction l with
  | nil => intro s; rfl
  | cons j rest ih =>
    intro s
    show (updatePass (updatePassStep s j) rest).world_.length = s.world_.length
    rw [ih, updatePassStep_world_length]

theorem updatePass_world_untouched (l : List Nat) :
    ∀ (s : transform_manager_t) (i : Nat), i ∉ l →
      (updatePass s l).world_[i]? = s.world_[i]? := by
  induction l with
  | nil => intro s i _; rfl
  | cons j rest ih =>
    intro s i hi
    have hij : i ≠ j := by
      intro hx
      exact hi (by rw [hx]; simp)
    have hirest : i ∉ rest := by
      intro hx
      exact hi (by simp [hx])
    show (updatePass (updatePassStep s j) rest).world_[i]? = s.world_[i]?
    rw [ih _ i hirest, updatePassStep_world_other s i j (Ne.symm hij)]

theorem updatePass_append (s : transform_manager_t) (l1 l2 : List Nat) :
    updatePass s (l1 ++ l2) = updatePass (updatePass s l1) l2 :=
  List.foldl_append _ _ _ _

theorem updatePass_range_decomp (s : transform_manager_t) (i n : Nat) (hin : i < n) :
    (updatePass s (List.range n)).world_[i]? =
      (updatePassStep (updatePass s (List.range i)) i).world_[i]? := by
  have hsplit : List.range n = List.range (i + 1) ++
      (List.range (n - (i + 1))).map (fun x => (i + 1) + x) := by
    rw [← List.range_add]
    congr 1
    omega
  have hnot : i ∉ (List.range (n - (i + 1))).map (fun x => (i + 1) + x) := by
    intro hx
    rcases List.mem_map.1 hx with ⟨x, _, hx2⟩
    omega
  rw [hsplit, updatePass_append,
    updatePass_world_untouched _ _ i hnot,
    List.range_succ, updatePass_append]
  rfl

theorem chainWorld_mono (pf : packed_freelist_t mat4) (par : List handle_t) :
    ∀ (f f' i : Nat) (v : mat4), chainWorld pf par f i = some v → f ≤ f' →
      chainWorld pf par f' i = some v := by
  intro f
  induction f with
  | zero =>
    intro f' i v hv
    simp [chainWorld] at hv
  | succ g ih =>
    intro f' i v hv hle
    cases f' with
    | zero => omega
    | succ g' =>
      rw [chainWorld] at hv
      rw [chainWorld]
      cases hx : pf.getIndexFromId (par.getD i NULL_HANDLE) with
      | none =>
        rw [hx] at hv
        exact hv
      | some p =>
        rw [hx] at hv
        have hv' : Option.map (fun m => mat4mul (pf.dense.getD i mat4zero) m)
            (chainWorld pf par g p) = some v := hv
        cases hy : chainWorld pf par g p with
        | none =>
          rw [hy] at hv'
          simp at hv'
        | some w =>
          show Option.map (fun m => mat4mul (pf.dense.getD i mat4zero) m)
            (chainWorld pf par g' p) = some v
          rw [ih g' p w hy (by omega)]
          rw [hy] at hv'
          exact hv'

end transform_manager_t

end Brokkr
namespace Brokkr

theorem getElem?_eq_some_getD {β : Type} (l : List β) (d : Nat) (x : β)
    (hd : d < l.length) : l[d]? = some (l.getD d x) := by
  rw [List.getElem?_eq_getElem hd, List.getD_eq_getElem?_getD,
    List.getElem?_eq_getElem hd]
  rfl

namespace transform_manager_t

open packed_freelist_t

theorem updatePassStep_world_self_none (s : transform_manager_t) (i : Nat)
    (hi : i < s.world_.length)
    (hp : s.transform_.getIndexFromId (s.parent_.getD i NULL_HANDLE) = none) :
    (updatePassStep s i).world_[i]? = some (s.transform_.dense.getD i mat4zero) := by
  simp only [updatePassStep, hp]
  show (s.world_.set i (s.transform_.dense.getD i mat4zero))[i]? = _
  rw [List.getElem?_set_self hi]

theorem updatePassStep_world_self_some (s : transform_manager_t) (i p : Nat)
    (hi : i < s.world_.length) (hip : p ≠ i)
    (hp : s.transform_.getIndexFromId (s.parent_.getD i NULL_HANDLE) = some p) :
    (updatePassStep s i).world_[i]? =
      some (mat4mul (s.transform_.dense.getD i mat4zero) (s.world_.getD p mat4zero)) := by
  simp only [updatePassStep, hp]
  show ((s.world_.set i (s.transform_.dense.getD i mat4zero)).set i
      (mat4mul ((s.world_.set i (s.transform_.dense.getD i mat4zero)).getD i mat4zero)
        ((s.world_.set i (s.transform_.dense.getD i mat4zero)).getD p mat4zero)))[i]? = _
  rw [List.getElem?_set_self (by simpa using hi)]
  rw [getD_set_self _ _ _ _ hi, getD_set_ne _ _ _ _ _ (Ne.symm hip)]

theorem updatePass_final_world (s : transform_manager_t)
    (hlen : s.transform_.dense.length ≤ s.world_.length)
    (hsorted : ∀ j, j < s.transform_.dense.length → ∀ p,
      s.transform_.getIndexFromId (s.parent_.getD j NULL_HANDLE) = some p → p < j) :
    ∀ i, i < s.transform_.dense.length →
      (updatePass s (List.range s.transform_.dense.length)).world_[i]? =
        chainWorld s.transform_ s.parent_ (i + 1) i := by
  intro i
  induction i using Nat.strong_induction_on with
  | _ i ih =>
    intro hi
    have htt : (updatePass s (List.range i)).transform_ = s.transform_ :=
      updatePass_transform _ s
    have htp : (updatePass s (List.range i)).parent_ = s.parent_ :=
      updatePass_parent _ s
    have htw : (updatePass s (List.range i)).world_.length = s.world_.length :=
      updatePass_world_length _ s
    rw [updatePass_range_decomp s i _ hi]
    cases hp : s.transform_.getIndexFromId (s.parent_.getD i NULL_HANDLE) with
    | none =>
      have hp' : (updatePass s (List.range i)).transform_.getIndexFromId
          ((updatePass s (List.range i)).parent_.getD i NULL_HANDLE) = none := by
        rw [htt, htp]
        exact hp
      rw [updatePassStep_world_self_none _ i (by omega) hp', htt]
      have hcv : chainWorld s.transform_ s.parent_ (i + 1) i =
          some (s.transform_.dense.getD i mat4zero) := by
        rw [chainWorld, hp]
      rw [hcv]
    | some p =>
      have hpi : p < i := hsorted i hi p hp
      have hp' : (updatePass s (List.range i)).transform_.getIndexFromId
          ((updatePass s (List.range i)).parent_.getD i NULL_HANDLE) = some p := by
        rw [htt, htp]
        exact hp
      rw [updatePassStep_world_self_some _ i p (by omega) (by omega) hp', htt]
      have hpc : p < s.transform_.dense.length := by omega
      have hfin := ih p hpi hpc
      have hplen : p < (updatePass s (List.range s.transform_.dense.length)).world_.length := by
        rw [updatePass_world_length]
        omega
      have hsome : ∃ vp, (updatePass s
          (List.range s.transform_.dense.length)).world_[p]? = some vp := by
        rw [List.getElem?_eq_getElem hplen]
        exact ⟨_, rfl⟩
      rcases hsome with ⟨vp, hvp⟩
      have hcp : chainWorld s.transform_ s.parent_ (p + 1) p = some vp := by
        rw [← hfin]
        exact hvp
      have htv : (updatePass s (List.range i)).world_[p]? = some vp := by
        rw [updatePass_range_decomp s p i hpi, ← updatePass_range_decomp s p _ hpc]
        exact hvp
      have hgd : (updatePass s (List.range i)).world_.getD p mat4zero = vp := by
        rw [List.getD_eq_getElem?_getD, htv]
        rfl
      rw [hgd]
      have hcw : chainWorld s.transform_ s.parent_ (i + 1) i =
          some (mat4mul (s.transform_.dense.getD i mat4zero) vp) := by
        rw [chainWorld, hp]
        have hmono : chainWorld s.transform_ s.parent_ i p = some vp :=
          chainWorld_mono s.transform_ s.parent_ (p + 1) i p vp hcp (by omega)
        show Option.map (fun m => mat4mul (s.transform_.dense.getD i mat4zero) m)
          (chainWorld s.transform_ s.parent_ i p) = _
        rw [hmono]
        rfl
      rw [hcw]

theorem update_cases (tm tm' : transform_manager_t) (hu : update tm = some tm') :
    (tm.hierarchy_changed_ = false ∧
      tm' = updatePass tm (List.range tm.transform_.getElementCount)) ∨
    (tm.hierarchy_changed_ = true ∧ ∃ s0, sortTransforms tm = some s0 ∧
      tm' = updatePass { s0 with hierarchy_changed_ := false }
        (List.range s0.transform_.getElementCount)) := by
  rw [update] at hu
  cases hf : tm.hierarchy_changed_ with
  | false =>
    rw [hf] at hu
    simp at hu
    exact Or.inl ⟨rfl, hu.symm⟩
  | true =>
    rw [hf] at hu
    simp at hu
    cases hs : sortTransforms tm with
    | none => rw [hs] at hu; simp at hu
    | some s0 =>
      rw [hs] at hu
      simp at hu
      exact Or.inr ⟨rfl, s0, rfl, hu.symm⟩

theorem sort_state_facts (tm s0 : transform_manager_t) (hw : tm.mwf)
    (hs : sortTransforms tm = some s0) :
    s0.transform_.pwf ∧
      s0.transform_.dense.length = tm.transform_.dense.length ∧
      s0.parent_.length = tm.parent_.length ∧
      s0.world_ = tm.world_ ∧
      (∀ h, s0.transform_.isValid h = tm.transform_.isValid h) ∧
      (∀ h, s0.transform_.get h = tm.transform_.get h) := by
  obtain ⟨hpw, hlw, hls⟩ := hw
  rcases sortTransforms_cases tm s0 hs with ⟨ord0, hb, htm'⟩
  rcases buildOrdered_spec tm ord0 hb with ⟨hlen0, _⟩
  have hperm : (ord0.insertionSort levelLe).Perm ord0 := List.perm_insertionSort _ _
  have inv := applyOrder_spec (ord0.insertionSort levelLe) tm 0 hpw
    (Nat.le_trans (count_le_sparse _ hpw) hls)
    (by rw [Nat.zero_add, hperm.length_eq, hlen0])
    (by
      intro t ht
      have ht0 : t ∈ ord0 := hperm.mem_iff.1 ht
      rcases List.mem_iff_get.1 ht0 with ⟨⟨r, hr⟩, rfl⟩
      rw [(buildOrdered_spec tm ord0 hb).2 r hr |>.1]
      exact (getIdFromIndex_spec tm.transform_ hpw r (by rw [← hlen0]; exact hr)).1)
    ((hperm.map (fun t => t.id)).nodup_iff.2 (ord0_ids_nodup tm hpw ord0 hb))
    (fun t _ => Nat.zero_le _)
  rw [← htm'] at inv
  exact ⟨inv.2.2.2.2.1, inv.2.2.2.2.2.1.2.1, inv.2.2.2.2.2.1.2.2.1,
    inv.2.2.2.2.2.1.2.2.2.1, inv.2.2.2.1, inv.2.2.1⟩

end transform_manager_t

end Brokkr
namespace Brokkr

namespace packed_freelist_t

theorem getIndexFromId_some_lt {α : Type} (pf : packed_freelist_t α) (h : handle_t)
    (d : Nat) (hw : pf.pwf) (hd : pf.getIndexFromId h = some d) :
    d < pf.dense.length := by
  cases hv : pf.isValid h with
  | false =>
    rw [getIndexFromId_of_invalid pf h hv] at hd
    exact absurd hd (by simp)
  | true =>
    simp [getIndexFromId, hv] at hd
    rw [← hd]
    exact valid_densePos_lt pf h hw hv

end packed_freelist_t

namespace transform_manager_t

open packed_freelist_t

theorem update_struct (tm tm' : transform_manager_t) (hw : tm.mwf)
    (hu : update tm = some tm') :
    ∃ s : transform_manager_t,
      tm' = updatePass s (List.range s.transform_.dense.length) ∧
      tm'.transform_ = s.transform_ ∧ tm'.parent_ = s.parent_ ∧
      s.transform_.pwf ∧ s.transform_.dense.length ≤ s.world_.length ∧
      (tm.hierarchy_changed_ = true →
        ∀ j, j < s.transform_.dense.length → ∀ p,
          s.transform_.getIndexFromId (s.parent_.getD j NULL_HANDLE) = some p →
            p < j) := by
  rcases update_cases tm tm' hu with ⟨hf, he⟩ | ⟨hf, s0, hs, he⟩
  · refine ⟨tm, he, ?_, ?_, hw.1, ?_, ?_⟩
    · rw [he, updatePass_transform]
    · rw [he, updatePass_parent]
    · have h1 := count_le_sparse tm.transform_ hw.1
      have h2 := hw.2.2
      have h3 := hw.2.1
      omega
    · intro htrue
      rw [hf] at htrue
      exact absurd htrue (by simp)
  · rcases sort_state_facts tm s0 hw hs with ⟨hpw0, hlen0, hpl0, hwld0, hvv0, hgg0⟩
    refine ⟨{ s0 with hierarchy_changed_ := false }, he, ?_, ?_, hpw0, ?_, ?_⟩
    · rw [he, updatePass_transform]
    · rw [he, updatePass_parent]
    · show s0.transform_.dense.length ≤ s0.world_.length
      have h1 := count_le_sparse tm.transform_ hw.1
      have h2 := hw.2.2
      have h3 := hw.2.1
      rw [hlen0, hwld0]
      omega
    · intro _
      exact sorted_parent_lt tm s0 hw hs

end transform_manager_t

open packed_freelist_t transform_manager_t

/-- C5: after an `update()` that ran to completion, a node whose recorded
parent handle is stale (fails the allocator's validity check, as a
destroyed transform's handle does) is treated as a root: its cached world
matrix equals its local matrix, with no error reported. -/
theorem claim_C5_stale_parent (tm tm' : transform_manager_t) (h : handle_t) (d : Nat)
    (hw : tm.mwf) (hu : update tm = some tm')
    (hd : tm'.transform_.getIndexFromId h = some d)
    (hstale : tm'.transform_.isValid (tm'.parent_.getD d NULL_HANDLE) = false) :
    tm'.getWorldMatrix h = tm'.getTransform h ∧
      tm'.getWorldMatrix h = some (tm'.transform_.dense.getD d mat4zero) := by
  rcases update_struct tm tm' hw hu with ⟨s, he, htr, hpr, hpw, hlen, -⟩
  have hd' : s.transform_.getIndexFromId h = some d := by
    rw [← htr]
    exact hd
  have hdlt : d < s.transform_.dense.length :=
    getIndexFromId_some_lt s.transform_ h d hpw hd'
  have hstep : tm'.world_[d]? = some (s.transform_.dense.getD d mat4zero) := by
    rw [he, updatePass_range_decomp s d _ hdlt]
    have hinv : (updatePass s (List.range d)).transform_.isValid
        ((updatePass s (List.range d)).parent_.getD d NULL_HANDLE) = false := by
      rw [updatePass_transform, updatePass_parent, ← htr, ← hpr]
      exact hstale
    rw [updatePassStep_world_self_none _ d
        (by rw [updatePass_world_length]; omega)
        (getIndexFromId_of_invalid _ _ hinv),
      updatePass_transform]
  constructor
  · simp only [getWorldMatrix, getTransform, packed_freelist_t.get, hd, Option.some_bind]
    rw [hstep, htr, getElem?_eq_some_getD _ d mat4zero hdlt]
  · simp only [getWorldMatrix, hd]
    rw [hstep, htr]

/-- Witness for C5: destroying A out of the A←B←C chain leaves B's
recorded parent handle dangling; `update()` still succeeds and leaves B's
world matrix equal to its local matrix. -/
theorem claim_C5_witness :
    script.ds1.mwf ∧ update script.ds1 = some script.ds2 ∧
      script.ds2.transform_.getIndexFromId script.h1 = some 0 ∧
      script.ds2.transform_.isValid
        (script.ds2.parent_.getD 0 NULL_HANDLE) = false ∧
      (script.ds2.getWorldMatrix script.h1 = script.ds2.getTransform script.h1 ∧
        script.ds2.getWorldMatrix script.h1 =
          some (script.ds2.transform_.dense.getD 0 mat4zero)) :=
  ⟨by decide, by decide, by decide, by decide,
    claim_C5_stale_parent script.ds1 script.ds2 script.h1 0
      (by decide) (by decide) (by decide) (by decide)⟩

/-- C2: for transforms A (local `translate(1,0,0)`), B (local
`translate(0,1,0)`, parent A) and C (local `translate(0,0,1)`, parent B)
created in that order, after `update()` the world matrix of C is
`translate(0,0,1) * translate(0,1,0) * translate(1,0,0)` and the world
matrix of A is `translate(1,0,0)`; and in general, after an `update()`
that ran on a changed hierarchy, every node's cached world matrix equals
its local matrix composed along its ancestor chain (`chainWorld`, the
source's `local * parentWorld` recursion). -/
theorem claim_C2_world_composition :
    (update script.stC = some script.stU ∧
      script.stU.getWorldMatrix script.h2 =
        some (translate 0 0 1 * translate 0 1 0 * translate 1 0 0) ∧
      script.stU.getWorldMatrix script.h0 = some (translate 1 0 0)) ∧
    ∀ tm tm' : transform_manager_t, ∀ h : handle_t, ∀ d : Nat,
      tm.mwf → tm.hierarchy_changed_ = true → update tm = some tm' →
      tm'.transform_.getIndexFromId h = some d →
      tm'.getWorldMatrix h = chainWorld tm'.transform_ tm'.parent_ (d + 1) d := by
  constructor
  · exact ⟨by decide, by decide, by decide⟩
  · intro tm tm' h d hw hflag hu hd
    rcases update_struct tm tm' hw hu with ⟨s, he, htr, hpr, hpw, hlen, hsrt⟩
    have hd' : s.transform_.getIndexFromId h = some d := by
      rw [← htr]
      exact hd
    have hdlt : d < s.transform_.dense.length :=
      getIndexFromId_some_lt s.transform_ h d hpw hd'
    have hfin := updatePass_final_world s hlen (hsrt hflag) d hdlt
    have hworld : tm'.world_[d]? = chainWorld s.transform_ s.parent_ (d + 1) d := by
      rw [he]
      exact hfin
    simp only [getWorldMatrix, hd]
    rw [htr, hpr]
    exact hworld

/-- Witness for C2's general clause: in the updated chain scenario, B's
world matrix is its ancestor-chain composition starting at its dense
position. -/
theorem claim_C2_witness :
    script.stU.getWorldMatrix script.h1 =
      chainWorld script.stU.transform_ script.stU.parent_ 2 1 :=
  claim_C2_world_composition.2 script.stC script.stU script.h1 1
    (by decide) (by decide) (by decide) (by decide)

end Brokkr
